import Mathlib

/-!
Verification of the configuration-resolution module `tfimm/train/config.py`.

The module resolves a layered configuration: schema defaults, a YAML file
override, and command-line overrides, converging through an iterative
fixed-point loop that discovers nested schema choices ("…_class" selector
fields) on the fly.

Shallow embedding conventions:
* Python dicts are modelled as association lists (`CD`) that preserve
  insertion order; assignment (`dinsert`) replaces in place or appends,
  exactly like Python dict assignment.
* The `dataclasses.MISSING` sentinel is the value `Val.vMissing`.
* The external registry (`get_cfg_class`) is a parameter
  `reg : String → Option Schema`, per its contract: name to schema descriptor.
* YAML loading is a parameter `load : String → Option (CD Val)`.
* Python exceptions are `Except PErr`; `PErr.recursionError` models Python's
  `RecursionError` for the genuinely unbounded schema recursion, which is
  driven by an explicit fuel parameter.
* `argparse` (an external collaborator, used with `--key value` token pairs)
  is modelled by `parse_known_args`: known switches consume their value token
  and coerce it with the declared type; unknown tokens are collected in order.
* String manipulation is implemented over character lists so that every
  definition evaluates inside the kernel (`decide`).
-/

/-- Declared field types occurring in configurations (`type(val)` in Python). -/
inductive Ty where
  | tBool
  | tInt
  | tStr
  | tTuple
  | tList
deriving DecidableEq

mutual
/-- Python values occurring in configurations and literal evaluation. -/
inductive Val where
  | vMissing
  | vNone
  | vBool (b : Bool)
  | vInt (n : Int)
  | vStr (s : String)
  | vTuple (xs : ValList)
  | vList (xs : ValList)
deriving DecidableEq
/-- A list of Python values (elements of a tuple or list literal). -/
inductive ValList where
  | nil
  | cons (v : Val) (t : ValList)
deriving DecidableEq
end

mutual
/-- A configuration value: either a terminal of type `α` or a nested mapping.
`α = Val` is the plain dictionary form; `α = Ty × Val` is the typed-argument
form produced by `to_arg_format`. -/
inductive CV (α : Type) where
  | term (v : α)
  | dict (m : CD α)
deriving DecidableEq
/-- An insertion-ordered mapping from string keys to configuration values
(the model of a Python dict). -/
inductive CD (α : Type) where
  | nil
  | cons (k : String) (v : CV α) (t : CD α)
deriving DecidableEq
end

mutual
/-- A configuration value possibly containing dataclass instances
(the typed form handled by `to_dict_format` / `to_cls_format`). -/
inductive MV where
  | term (v : Val)
  | dict (m : MD)
  | inst (cls : String) (fields : MD)
deriving DecidableEq
/-- An insertion-ordered mapping with `MV` values. -/
inductive MD where
  | nil
  | cons (k : String) (v : MV) (t : MD)
deriving DecidableEq
end

/-- A schema field descriptor: name, declared type, default (or missing). -/
structure CfgField where
  name : String
  ty : Ty
  dflt : Val
deriving DecidableEq

/-- A schema descriptor: the ordered field list of a config dataclass. -/
abbrev Schema : Type := List CfgField

/-- The registry contract (`get_cfg_class`): schema name to descriptor. -/
def Registry : Type := String → Option Schema

/-- Error conditions of the resolution pipeline (Python exceptions). -/
inductive PErr where
  | recursionError
  | unknownSchema
  | invalidOverride
  | invalidArgument
  | missingArgValue
  | unresolvedArgument (k : String)
  | stalled
  | keyError
  | fileNotFound
  | typeError
  | outOfFuel
deriving DecidableEq

instance {E A : Type} [DecidableEq E] [DecidableEq A] : DecidableEq (Except E A) := fun a b =>
  match a, b with
  | .ok x, .ok y => if h : x = y then .isTrue (by rw [h]) else .isFalse (by simp [h])
  | .error x, .error y => if h : x = y then .isTrue (by rw [h]) else .isFalse (by simp [h])
  | .ok _, .error _ => .isFalse (by simp)
  | .error _, .ok _ => .isFalse (by simp)

/-! ### String helpers over character lists (kernel-computable) -/

/-- `l₁` is a suffix of `l₂` (executable). -/
def isSuffixL (l₁ l₂ : List Char) : Bool :=
  List.isPrefixOf l₁.reverse l₂.reverse

/-- `key.endswith("_class")`. -/
def endsWithClass (k : String) : Bool :=
  isSuffixL "_class".data k.data

/-- `key[:-len("_class")]`: strip the reserved suffix. -/
def stripClass (k : String) : String :=
  String.mk (k.data.take (k.data.length - 6))

/-- `"." in key`. -/
def hasDot (k : String) : Bool :=
  k.data.any (fun c => c = '.')

/-- First component of `key.split(".", 1)`. -/
def dotRoot (k : String) : String :=
  String.mk (k.data.takeWhile (fun c => c ≠ '.'))

/-- Second component of `key.split(".", 1)`. -/
def dotRest (k : String) : String :=
  String.mk ((k.data.dropWhile (fun c => c ≠ '.')).drop 1)

/-- `f"{key}.{sub_key}"`. -/
def joinDot (k sub : String) : String :=
  k ++ "." ++ sub

/-- Lower-case a character (ASCII, as used by `str.lower` on the inputs of
`str2bool`). -/
def lowerChar (c : Char) : Char :=
  if 'A' ≤ c ∧ c ≤ 'Z' then Char.ofNat (c.toNat + 32) else c

/-- `s.lower()` (ASCII fragment). -/
def lowerStr (s : String) : String :=
  String.mk (s.data.map lowerChar)

/-! ### Association-list (Python dict) operations -/

/-- Dictionary lookup: `cfg[k]` / `cfg.get(k)`. -/
def dlookup {α : Type} (k : String) : CD α → Option (CV α)
  | .nil => none
  | .cons k' v t => if k' = k then some v else dlookup k t

/-- `k in cfg`. -/
def dcontains {α : Type} (k : String) (m : CD α) : Bool :=
  (dlookup k m).isSome

/-- Python dict assignment `d[k] = v`: replaces the value in place if the key
is present, appends otherwise. -/
def dinsert {α : Type} (m : CD α) (k : String) (v : CV α) : CD α :=
  match m with
  | .nil => .cons k v .nil
  | .cons k' v' t => if k' = k then .cons k' v t else .cons k' v' (dinsert t k v)

/-- Python `d.update(other)`: assign every entry of `other` into `d`, in
iteration order. -/
def dUpdate {α : Type} (m : CD α) : CD α → CD α
  | .nil => m
  | .cons k v t => dUpdate (dinsert m k v) t

/-- The list of keys of a dictionary, in order. -/
def dkeys {α : Type} : CD α → List String
  | .nil => []
  | .cons k _ t => k :: dkeys t

/-- Number of entries. -/
def dlen {α : Type} : CD α → Nat
  | .nil => 0
  | .cons _ _ t => 1 + dlen t

/-! ### Size measures (used only to supply sufficient fuel) -/

mutual
/-- Size of a configuration value, counting key lengths. -/
def measCV {α : Type} : CV α → Nat
  | .term _ => 1
  | .dict m => 1 + measCD m
/-- Size of a configuration dictionary, counting key lengths. -/
def measCD {α : Type} : CD α → Nat
  | .nil => 0
  | .cons k v t => k.length + 1 + measCV v + measCD t
end

/-! ### `to_dict_format`: typed form to nested dictionaries -/

mutual
/-- `to_dict_format` on a single value: dataclass instances become their field
dictionaries (`dataclasses.asdict`), dictionaries recurse, terminals pass. -/
def tdfV : MV → CV Val
  | .term v => .term v
  | .dict m => .dict (tdfD m)
  | .inst _ fields => .dict (tdfD fields)
/-- `to_dict_format` on a dictionary. -/
def tdfD : MD → CD Val
  | .nil => .nil
  | .cons k v t => .cons k (tdfV v) (tdfD t)
end

/-- `to_dict_format(cfg)`. -/
def to_dict_format (cfg : MD) : CD Val := tdfD cfg

/-! ### `to_cls_format`: nested dictionaries to typed form -/

/-- Dataclass construction `cls(**val)`: fields are filled in declaration
order from the supplied dictionary, falling back to the field default;
a missing required field or an unexpected key raises `TypeError`. -/
def mkFields (m : MD) : Schema → Except PErr MD
  | [] => .ok .nil
  | f :: fs =>
    match mdlookup f.name m with
    | some v => (MD.cons f.name v) <$> mkFields m fs
    | none =>
      if f.dflt = Val.vMissing then .error .typeError
      else (MD.cons f.name (.term f.dflt)) <$> mkFields m fs
where
  /-- Lookup in an `MD` dictionary. -/
  mdlookup (k : String) : MD → Option MV
    | .nil => none
    | .cons k' v t => if k' = k then some v else mdlookup k t

/-- All keys of `m` name fields of the schema (otherwise `cls(**m)` raises
`TypeError` for an unexpected keyword argument). -/
def keysSubset (fields : Schema) : MD → Bool
  | .nil => true
  | .cons k _ t => fields.any (fun f => f.name = k) && keysSubset fields t

/-- `cls(**m)` for the schema named `cls`. -/
def mkInst (cls : String) (fields : Schema) (m : MD) : Except PErr MV :=
  if keysSubset fields m then (MV.inst cls) <$> mkFields m fields
  else .error .typeError

/-- `to_cls_format` over the entries of one dictionary level. `cfgFull` is the
whole level, needed to resolve the `f"{key}_class"` sibling selector. -/
def tcfGo (reg : Registry) (cfgFull : CD Val) : CD Val → Except PErr MD
  | .nil => .ok .nil
  | .cons k v t =>
    match v with
    | .dict m =>
      match tcfGo reg m m with
      | .error e => .error e
      | .ok m' =>
        match dlookup (k ++ "_class") cfgFull with
        | none => .error .keyError
        | some (.term (.vStr name)) =>
          match reg name with
          | none => .error .unknownSchema
          | some fields =>
            match mkInst name fields m' with
            | .error e => .error e
            | .ok inst => (MD.cons k inst) <$> tcfGo reg cfgFull t
        | some _ => .error .unknownSchema
    | .term a => (MD.cons k (.term a)) <$> tcfGo reg cfgFull t

/-- `to_cls_format(cfg)`: converts nested dictionaries to config classes using
the `"_class"` selector fields. -/
def to_cls_format (reg : Registry) (cfg : CD Val) : Except PErr MD :=
  tcfGo reg cfg cfg

/-! ### `to_arg_format`: pair every terminal with its runtime type -/

/-- `type(val)` for the values allowed in configurations. -/
def pyType : Val → Ty
  | .vMissing => .tStr
  | .vNone => .tStr
  | .vBool _ => .tBool
  | .vInt _ => .tInt
  | .vStr _ => .tStr
  | .vTuple _ => .tTuple
  | .vList _ => .tList

mutual
/-- `to_arg_format` on a single value: `None` and `MISSING` are typed as
`str`; other terminals are paired with their runtime type. -/
def tafV : CV Val → CV (Ty × Val)
  | .term v => if v = Val.vNone ∨ v = Val.vMissing then .term (.tStr, v) else .term (pyType v, v)
  | .dict m => .dict (tafD m)
/-- `to_arg_format` on a dictionary. -/
def tafD : CD Val → CD (Ty × Val)
  | .nil => .nil
  | .cons k v t => .cons k (tafV v) (tafD t)
end

/-- `to_arg_format(cfg)`. -/
def to_arg_format (cfg : CD Val) : CD (Ty × Val) := tafD cfg

/-! ### `deep_to_flat` and `flat_to_deep` -/

/-- Assign all entries of the (already flattened) dictionary `sub` into `res`
under dotted keys `f"{pre}.{sub_key}"`. -/
def dtfIns {α : Type} (res : CD α) (pre : String) : CD α → CD α
  | .nil => res
  | .cons sk sv t => dtfIns (dinsert res (joinDot pre sk) sv) pre t

/-- The traversal of `deep_to_flat`, accumulating into the result dict. -/
def dtfGo {α : Type} : CD α → CD α → CD α
  | .nil, res => res
  | .cons k v t, res =>
    match v with
    | .dict m => dtfGo t (dtfIns res k (dtfGo m .nil))
    | .term a => dtfGo t (dinsert res k (.term a))

/-- `deep_to_flat(cfg)`: flatten nested dictionaries into dotted keys. -/
def deep_to_flat {α : Type} (cfg : CD α) : CD α := dtfGo cfg .nil

/-- First pass of `flat_to_deep`: resolve one level of nesting by splitting
each dotted key at its first `"."`. A dotted key whose root is already bound
to a non-dict raises `TypeError` (`res_cfg[root][leaf] = val` in Python). -/
def ftdPhase1 {α : Type} : CD α → CD α → Except PErr (CD α)
  | .nil, res => .ok res
  | .cons k v t, res =>
    if hasDot k then
      match dlookup (dotRoot k) res with
      | some (.dict m) => ftdPhase1 t (dinsert res (dotRoot k) (.dict (dinsert m (dotRest k) v)))
      | some (.term _) => .error .typeError
      | none => ftdPhase1 t (dinsert res (dotRoot k) (.dict (.cons (dotRest k) v .nil)))
    else ftdPhase1 t (dinsert res k v)

/-- Second pass of `flat_to_deep`: recurse (`rec`) into every dict value. -/
def ftdMap {α : Type} (rec : CD α → Except PErr (CD α)) : CD α → Except PErr (CD α)
  | .nil => .ok .nil
  | .cons k v t =>
    match v with
    | .dict m =>
      match rec m with
      | .error e => .error e
      | .ok m' => (CD.cons k (.dict m')) <$> ftdMap rec t
    | .term a => (CD.cons k (.term a)) <$> ftdMap rec t

/-- Fuelled `flat_to_deep`; the fuel only bounds the recursion depth. -/
def ftdFuel {α : Type} : Nat → CD α → Except PErr (CD α)
  | 0, _ => .error .recursionError
  | fuel + 1, cfg =>
    match ftdPhase1 cfg .nil with
    | .error e => .error e
    | .ok res => ftdMap (ftdFuel fuel) res

/-- `flat_to_deep(cfg)`: rebuild nested dictionaries from dotted keys.
`measCD cfg + 1` recursion depth always suffices (proved below). -/
def flat_to_deep {α : Type} (cfg : CD α) : Except PErr (CD α) :=
  ftdFuel (measCD cfg + 1) cfg

/-! ### `add_default_args`: schema expansion -/

/-- Build `{field.name: (field.type, field.default) for field in fields}`. -/
def fieldsToCD : Schema → CD (Ty × Val)
  | [] => .nil
  | f :: fs => .cons f.name (.term (f.ty, f.dflt)) (fieldsToCD fs)

/-- One level of `add_default_args`. `recurse` is the recursive call (the
fuel is threaded by `add_default_args` itself), `cfgFull` is the whole
current level (`cfg` in Python, used by `stem in cfg` / `cfg[stem]`), the
third argument is the remaining items and the fourth the result accumulator
(`res_cfg`). -/
def adaGo (reg : Registry) (recurse : CD (Ty × Val) → Except PErr (CD (Ty × Val)))
    (cfgFull : CD (Ty × Val)) : CD (Ty × Val) → CD (Ty × Val) → Except PErr (CD (Ty × Val))
  | .nil, res => .ok res
  | .cons k v t, res =>
    match v with
    | .dict m =>
      match recurse m with
      | .error e => .error e
      | .ok m' => adaGo reg recurse cfgFull t (dinsert res k (.dict m'))
    | .term tv =>
      if endsWithClass k then
        -- `res_cfg[key] = val` (the selector itself is copied)
        if tv.2 = Val.vMissing then adaGo reg recurse cfgFull t (dinsert res k (.term tv))
        else
          match tv.2 with
          | .vStr name =>
            match reg name with
            | none => .error .unknownSchema
            | some fields =>
              let stem := stripClass k
              let params0 := fieldsToCD fields
              match dlookup stem cfgFull with
              | none =>
                match recurse params0 with
                | .error e => .error e
                | .ok sub =>
                  adaGo reg recurse cfgFull t (dinsert (dinsert res k (.term tv)) stem (.dict sub))
              | some (.dict m) =>
                match recurse (dUpdate params0 m) with
                | .error e => .error e
                | .ok sub =>
                  adaGo reg recurse cfgFull t (dinsert (dinsert res k (.term tv)) stem (.dict sub))
              | some (.term _) => .error .invalidOverride
          | _ => .error .unknownSchema
      else adaGo reg recurse cfgFull t (dinsert res k (.term tv))

/-- `add_default_args(cfg)`: inject the schema fields named by non-missing
`"_class"` selectors. The fuel models Python's recursion limit
(`RecursionError`): lookups in a cyclic registry do not terminate. -/
def add_default_args (reg : Registry) : Nat → CD (Ty × Val) → Except PErr (CD (Ty × Val))
  | 0, _ => .error .recursionError
  | fuel + 1, cfg => adaGo reg (add_default_args reg fuel) cfg cfg .nil

/-! ### `str2bool` and `arg_as_tuple` (argument type coercion) -/

/-- `str2bool(v)`: a fixed vocabulary of truthy/falsy tokens, case-insensitive;
anything else raises `argparse.ArgumentTypeError`. -/
def str2bool (v : String) : Except PErr Val :=
  if lowerStr v ∈ ["yes", "true", "t", "y", "1"] then .ok (.vBool true)
  else if lowerStr v ∈ ["no", "false", "f", "n", "0"] then .ok (.vBool false)
  else .error .invalidArgument

/-- Skip blanks. -/
def skipWs (cs : List Char) : List Char := cs.dropWhile (fun c => c = ' ')

/-- Is `c` a decimal digit. -/
def isDig (c : Char) : Bool := '0' ≤ c ∧ c ≤ '9'

/-- Numeric value of a digit string. -/
def digitsVal (ds : List Char) : Nat := ds.foldl (fun a c => a * 10 + (c.toNat - 48)) 0

/-- Parse a decimal integer literal with optional sign from the front of `cs`. -/
def parseIntL (cs : List Char) : Option (Int × List Char) :=
  match cs with
  | '-' :: rest =>
    let ds := rest.takeWhile isDig
    if ds.isEmpty then none else some (-(digitsVal ds : Int), rest.drop ds.length)
  | _ =>
    let ds := cs.takeWhile isDig
    if ds.isEmpty then none else some ((digitsVal ds : Int), cs.drop ds.length)

/-- Reverse a `ValList`. -/
def revVL : ValList → ValList → ValList
  | .nil, out => out
  | .cons v t, out => revVL t (.cons v out)

/-- Build the tuple or list value from reversed elements. -/
def mkSeq (close : Char) (acc : ValList) : Val :=
  if close = ')' then .vTuple (revVL acc .nil) else .vList (revVL acc .nil)

mutual
/-- Model of `ast.literal_eval`, restricted to the fragment the configuration
system uses: integers, `True`/`False`/`None`, tuples and lists, with
blanks. Returns the parsed value and the unconsumed input, `none` on a
syntax error. A parenthesized expression without a comma is not a tuple,
exactly as in Python (`(1)` evaluates to `1`, `(1,)` to a 1-tuple). -/
def parseLit : Nat → List Char → Option (Val × List Char)
  | 0, _ => none
  | fuel + 1, cs =>
    let cs := skipWs cs
    match cs with
    | '(' :: rest => parseTupleBody fuel (skipWs rest)
    | '[' :: rest => parseListBody fuel (skipWs rest)
    | _ =>
      if List.isPrefixOf "True".data cs then some (.vBool true, cs.drop 4)
      else if List.isPrefixOf "False".data cs then some (.vBool false, cs.drop 5)
      else if List.isPrefixOf "None".data cs then some (.vNone, cs.drop 4)
      else
        match parseIntL cs with
        | some (n, rest) => some (.vInt n, rest)
        | none => none
/-- Inside `( … )`: empty tuple, parenthesized expression, or tuple. -/
def parseTupleBody : Nat → List Char → Option (Val × List Char)
  | 0, _ => none
  | fuel + 1, cs =>
    match cs with
    | ')' :: rest => some (.vTuple .nil, rest)
    | _ =>
      match parseLit fuel cs with
      | none => none
      | some (e, cs') =>
        match skipWs cs' with
        | ')' :: rest => some (e, rest)
        | ',' :: rest => parseElems fuel ')' (skipWs rest) (.cons e .nil)
        | _ => none
/-- Inside `[ … ]`: empty list, or list elements. -/
def parseListBody : Nat → List Char → Option (Val × List Char)
  | 0, _ => none
  | fuel + 1, cs =>
    match cs with
    | ']' :: rest => some (.vList .nil, rest)
    | _ =>
      match parseLit fuel cs with
      | none => none
      | some (e, cs') =>
        match skipWs cs' with
        | ']' :: rest => some (.vList (.cons e .nil), rest)
        | ',' :: rest => parseElems fuel ']' (skipWs rest) (.cons e .nil)
        | _ => none
/-- Elements after a comma, up to the closing bracket `close`
(allowing a trailing comma). `acc` holds the elements parsed so far,
in reverse. -/
def parseElems : Nat → Char → List Char → ValList → Option (Val × List Char)
  | 0, _, _, _ => none
  | fuel + 1, close, cs, acc =>
    match cs with
    | c :: rest =>
      if c = close then some (mkSeq close acc, rest)
      else
        match parseLit fuel cs with
        | none => none
        | some (e, cs') =>
          match skipWs cs' with
          | c' :: rest' =>
            if c' = close then some (mkSeq close (.cons e acc), rest')
            else if c' = ',' then parseElems fuel close (skipWs rest') (.cons e acc)
            else none
          | [] => none
    | [] => none
end

/-- `ast.literal_eval(s)`: parse a complete literal, `none` on error. -/
def literal_eval (s : String) : Option Val :=
  match parseLit (s.length + 1) s.data with
  | some (v, rest) => if (skipWs rest).isEmpty then some v else none
  | none => none

/-- `arg_as_tuple(s)`: evaluate the token as a literal; anything that is not
a tuple (including evaluation failures) is rejected as an invalid argument. -/
def arg_as_tuple (s : String) : Except PErr Val :=
  match literal_eval s with
  | some (.vTuple xs) => .ok (.vTuple xs)
  | some _ => .error .invalidArgument
  | none => .error .invalidArgument

/-! ### The argument surface and the `argparse` model -/

/-- `list(s)` in Python: the list of 1-character strings. -/
def strChars : List Char → ValList
  | [] => .nil
  | c :: t => .cons (.vStr (String.mk [c])) (strChars t)

/-- Apply the declared type of a switch to a supplied value token, as
`get_arg_parser` configures it: `bool` uses `str2bool`, `tuple` uses
`arg_as_tuple`, `int` uses `int(...)`, `str` passes through, `list` uses
`list(...)`. A coercion failure aborts parsing (`InvalidArgument`). -/
def coerce (ty : Ty) (tok : String) : Except PErr Val :=
  match ty with
  | .tBool => str2bool tok
  | .tTuple => arg_as_tuple tok
  | .tInt =>
    match parseIntL tok.data with
    | some (n, []) => .ok (.vInt n)
    | _ => .error .invalidArgument
  | .tStr => .ok (.vStr tok)
  | .tList => .ok (.vList (strChars tok.data))

/-- The argument surface derived from a flattened typed config: one switch
`--arg` per entry, with its declared type and default. Iterating
`for arg, (tp, val) in cfg.items()` over a dict value raises `TypeError`. -/
def get_arg_surface : CD (Ty × Val) → Except PErr (List (String × Ty × Val))
  | .nil => .ok []
  | .cons k v t =>
    match v with
    | .term tv => (fun r => (k, tv.1, tv.2) :: r) <$> get_arg_surface t
    | .dict _ => .error .typeError

/-- Namespace lookup (parsed values). -/
def nsLookup (k : String) : List (String × Val) → Option Val
  | [] => none
  | (k', v) :: t => if k' = k then some v else nsLookup k t

/-- Namespace assignment, Python attribute-setting semantics (replace in
place or append). -/
def nsInsert : List (String × Val) → String → Val → List (String × Val)
  | [], k, v => [(k, v)]
  | (k', v') :: t, k, v => if k' = k then (k', v) :: t else (k', v') :: nsInsert t k v

/-- The defaults seeded into the namespace before parsing: every surface
entry whose default is not `MISSING` (missing defaults are suppressed,
`argument_default=argparse.SUPPRESS`). -/
def nsDefaults : List (String × Ty × Val) → List (String × Val)
  | [] => []
  | (k, _, val) :: rest =>
    if val = Val.vMissing then nsDefaults rest else (k, val) :: nsDefaults rest

/-- Find the surface entry whose switch `--key` equals the token. -/
def findFlag (surface : List (String × Ty × Val)) (t : String) : Option (String × Ty × Val) :=
  surface.find? (fun p => "--" ++ p.1 = t)

/-- The scanning pass of `parser.parse_known_args(args)`: a token matching a
known switch consumes the following token as its value (failing if it is
absent or does not coerce); any other token is collected as unparsed. -/
def scanTokens (surface : List (String × Ty × Val)) :
    List String → List (String × Val) → List String →
    Except PErr (List (String × Val) × List String)
  | [], ns, unp => .ok (ns, unp)
  | t :: rest, ns, unp =>
    match findFlag surface t with
    | some (k, ty, _) =>
      match rest with
      | [] => .error .missingArgValue
      | v :: rest' =>
        match coerce ty v with
        | .error e => .error e
        | .ok val => scanTokens surface rest' (nsInsert ns k val) unp
    | none => scanTokens surface rest ns (unp ++ [t])

/-- `get_arg_parser(cfg)` followed by `parser.parse_known_args(args)`:
returns the parsed namespace (defaults overridden by supplied values) and
the residual unparsed tokens. -/
def parse_known_args (cfg : CD (Ty × Val)) (args : List String) :
    Except PErr (List (String × Val) × List String) :=
  match get_arg_surface cfg with
  | .error e => .error e
  | .ok surface => scanTokens surface args (nsDefaults surface) []

/-- The first surface key that received no value
(`for key in cfg.keys(): if key not in parsed_cfg`). -/
def firstUnsupplied (ks : List String) (ns : List (String × Val)) : Option String :=
  ks.find? (fun k => (nsLookup k ns).isNone)

/-- View a parsed flat namespace as a configuration dictionary. -/
def nsToCD : List (String × Val) → CD Val
  | [] => .nil
  | (k, v) :: t => .cons k (.term v) (nsToCD t)

/-! ### `apply_cfg_file`: the file-override merger -/

/-- The mini-parser for `--cfg_file` (`parse_known_args` with one switch and
no type): the last occurrence wins, other tokens are ignored, a trailing
`--cfg_file` without a value fails. -/
def resolveCfgFileArg : List String → CV Val → Except PErr (CV Val)
  | [], acc => .ok acc
  | t :: rest, acc =>
    if t = "--cfg_file" then
      match rest with
      | [] => .error .missingArgValue
      | v :: rest' => resolveCfgFileArg rest' (.term (.vStr v))
    else resolveCfgFileArg rest acc

/-- `apply_cfg_file(cfg, args)`: if the resolved config-file value is the
missing sentinel, return `cfg` unchanged; otherwise load the file and merge
its flattened entries over the flattened `cfg` (right-biased), rebuilding
the nested form. -/
def apply_cfg_file (load : String → Option (CD Val)) (cfg : CD Val) (args : List String) :
    Except PErr (CD Val) :=
  match dlookup "cfg_file" cfg with
  | none => .error .keyError
  | some dflt =>
    match resolveCfgFileArg args dflt with
    | .error e => .error e
    | .ok (.term .vMissing) => .ok cfg
    | .ok (.term (.vStr path)) =>
      match load path with
      | none => .error .fileNotFound
      | some loaded => flat_to_deep (dUpdate (deep_to_flat cfg) (deep_to_flat loaded))
    | .ok _ => .error .typeError

/-! ### The resolution loop (`parse_args`) -/

/-- `continue_parsing = unparsed is None or len(unparsed) > 0`. -/
def contFlag : Option (List String) → Bool
  | none => true
  | some u => !u.isEmpty

/-- One iteration of the resolution loop up to the unresolved-argument
check: convert to argument format, expand schemas, flatten, parse, and
verify that every surface key received a value. -/
def run_iteration (reg : Registry) (sfuel : Nat) (cfg : CD Val) (args : List String) :
    Except PErr (List (String × Val) × List String) :=
  match add_default_args reg sfuel (to_arg_format cfg) with
  | .error e => .error e
  | .ok acfg =>
    let flat := deep_to_flat acfg
    match parse_known_args flat args with
    | .error e => .error e
    | .ok (ns, unp) =>
      match firstUnsupplied (dkeys flat) ns with
      | some k => .error (.unresolvedArgument k)
      | none => .ok (ns, unp)

/-- The `while continue_parsing` loop of `parse_args`. The fuel counts loop
iterations; `parse_args` supplies `len(args) + 1`, which is always enough
(proved below). `unparsed?` is `None` before the first iteration; `nb` is
`nb_unparsed`. -/
def parse_loop (reg : Registry) (sfuel : Nat) (args : List String) :
    Nat → CD Val → Option (List String) → Nat → Except PErr (CD Val)
  | 0, _, _, _ => .error .outOfFuel
  | fuel + 1, cfg, unparsed?, nb =>
    let cont := contFlag unparsed?
    match run_iteration reg sfuel cfg args with
    | .error e => .error e
    | .ok (ns, unp) =>
      if cont && decide (unp.length ≥ nb) then .error .stalled
      else
        match flat_to_deep (nsToCD ns) with
        | .error e => .error e
        | .ok cfg' =>
          if cont then parse_loop reg sfuel args fuel cfg' (some unp) unp.length
          else .ok cfg'

/-- `parse_args(cfg, args)`: the full resolution. `sfuel` models Python's
recursion limit for schema expansion, `load` the YAML file reader. -/
def parse_args (reg : Registry) (sfuel : Nat) (load : String → Option (CD Val))
    (cfg₀ : MD) (args : List String) : Except PErr MD :=
  let cfg := to_dict_format cfg₀
  match (if dcontains "cfg_file" cfg then apply_cfg_file load cfg args else .ok cfg) with
  | .error e => .error e
  | .ok cfg =>
    match parse_loop reg sfuel args (args.length + 1) cfg none args.length with
    | .error e => .error e
    | .ok res => to_cls_format reg res

/-! ### Structural helpers and predicates used by the verification -/

/-- Concatenation of two dictionaries (used to reason about flattening when
all keys are fresh). -/
def dAppend {α : Type} : CD α → CD α → CD α
  | .nil, r => r
  | .cons k v t, r => .cons k v (dAppend t r)

/-- Prefix every key of an (already flat) dictionary with `pre` and a dot. -/
def prefixAll {α : Type} (pre : String) : CD α → CD α
  | .nil => .nil
  | .cons k v t => .cons (joinDot pre k) v (prefixAll pre t)

/-- The compositional form of `deep_to_flat`, equal to it whenever keys are
dot-free and duplicate-free (proved below). -/
def dtfSpec {α : Type} : CD α → CD α
  | .nil => .nil
  | .cons k v t =>
    match v with
    | .dict m => dAppend (prefixAll k (dtfSpec m)) (dtfSpec t)
    | .term a => .cons k (.term a) (dtfSpec t)

/-- The one-level grouping produced by the first pass of `flat_to_deep` on a
flattened well-formed configuration. -/
def phase1Spec {α : Type} : CD α → CD α
  | .nil => .nil
  | .cons k v t =>
    match v with
    | .dict m => .cons k (.dict (dtfSpec m)) (phase1Spec t)
    | .term a => .cons k (.term a) (phase1Spec t)

mutual
/-- Nesting height of a value (fuel needed by `flat_to_deep`). -/
def hCV {α : Type} : CV α → Nat
  | .term _ => 1
  | .dict m => 1 + hCD m
/-- Nesting height of a dictionary. -/
def hCD {α : Type} : CD α → Nat
  | .nil => 1
  | .cons _ v t => max (hCV v) (hCD t)
end

/-- The keys of one dictionary level are pairwise distinct. -/
def nodupKeysD {α : Type} : CD α → Bool
  | .nil => true
  | .cons k _ t => !dcontains k t && nodupKeysD t

mutual
/-- Well-formed configuration value for the flat/deep round trip: nested
dictionaries are nonempty and recursively well-formed. -/
def wfCV {α : Type} : CV α → Bool
  | .term _ => true
  | .dict m =>
    match m with
    | .nil => false
    | _ => wfCD m
/-- Well-formed configuration dictionary: keys are dot-free and pairwise
distinct at each level, values are well-formed. -/
def wfCD {α : Type} : CD α → Bool
  | .nil => true
  | .cons k v t => !hasDot k && !dcontains k t && wfCV v && wfCD t
end

mutual
/-- Keys are pairwise distinct at every nesting level. -/
def nodupDeepCV {α : Type} : CV α → Bool
  | .term _ => true
  | .dict m => nodupDeepCD m
/-- Keys are pairwise distinct at every nesting level. -/
def nodupDeepCD {α : Type} : CD α → Bool
  | .nil => true
  | .cons k v t => !dcontains k t && nodupDeepCV v && nodupDeepCD t
end

/-- Python dictionary equality (`==`) on configuration values: terminals
compare by value; dictionaries compare by key set and pointwise equal
values, ignoring insertion order. -/
inductive EqvA : CV (Ty × Val) → CV (Ty × Val) → Prop where
  | term (a : Ty × Val) : EqvA (.term a) (.term a)
  | dict (m m' : CD (Ty × Val)) :
      (∀ k, dcontains k m = dcontains k m') →
      (∀ k v v', dlookup k m = some v → dlookup k m' = some v' → EqvA v v') →
      EqvA (.dict m) (.dict m')

/-- Python dictionary equality on dictionaries. -/
def EqvD (m m' : CD (Ty × Val)) : Prop := EqvA (.dict m) (.dict m')

/-- Every name of the schema occurs as a key of `m`. -/
def fieldsCovered (fields : Schema) (m : CD (Ty × Val)) : Bool :=
  fields.all (fun f => dcontains f.name m)

/-- Schema-expansion state of one dictionary level (`cfgFull` is the level
itself): every `"_class"` selector holds a registry-resolvable schema name
and its stem is present as a nested dictionary already containing all of the
schema's field names; nested dictionaries are recursively in the same state.
This is the "every selector non-missing and resolvable, fields already
injected" hypothesis of the idempotence property. -/
def expGo (reg : Registry) (cfgFull : CD (Ty × Val)) : CD (Ty × Val) → Bool
  | .nil => true
  | .cons k v t =>
    match v with
    | .dict m => expGo reg m m && expGo reg cfgFull t
    | .term tv =>
      if endsWithClass k then
        match tv.2 with
        | .vStr name =>
          match reg name with
          | some fields =>
            nodupKeysD (fieldsToCD fields) &&
            (match dlookup (stripClass k) cfgFull with
             | some (.dict m) => fieldsCovered fields m
             | _ => false) && expGo reg cfgFull t
          | none => false
        | _ => false
      else expGo reg cfgFull t

/-- A configuration whose selectors are all resolved and expanded. -/
def expanded (reg : Registry) (cfg : CD (Ty × Val)) : Bool := expGo reg cfg cfg

/-! ### Concrete fixtures used by witnesses and counterexamples -/

/-- A registry with two schemas: `A{x: int = 1}` and `B{y: int = 2}`. -/
def regAB : Registry := fun n =>
  if n = "A" then some [⟨"x", .tInt, .vInt 1⟩]
  else if n = "B" then some [⟨"y", .tInt, .vInt 2⟩]
  else none

/-- The empty registry. -/
def regEmpty : Registry := fun _ => none

/-- A file loader with no files. -/
def noLoad : String → Option (CD Val) := fun _ => none

/-- The root configuration of the selector-unlocking scenario: a single
`backbone_class` selector defaulting to the missing sentinel. -/
def rootCfg : MD := .cons "backbone_class" (.term .vMissing) .nil

/-- A configuration with one defaulted integer entry. -/
def cfgOneInt : MD := .cons "a" (.term (.vInt 1)) .nil

/-- A configuration whose only entry has the missing sentinel as value. -/
def cfgOneMissing : MD := .cons "a" (.term .vMissing) .nil

/-- A configuration for the file-precedence scenario: a `cfg_file` entry
naming a file, a key `k` with default `0` and a key `a` with default `1`. -/
def cfgWithFile : MD :=
  .cons "cfg_file" (.term (.vStr "f.yaml"))
    (.cons "k" (.term (.vInt 0)) (.cons "a" (.term (.vInt 1)) .nil))

/-- A loader serving one file that sets `k = 7`. -/
def loadK7 : String → Option (CD Val) := fun p =>
  if p = "f.yaml" then some (.cons "k" (.term (.vInt 7)) .nil) else none

/-- An already-expanded argument-format configuration (the `B` schema chosen
and its field `y` injected with a non-default value). -/
def expandedFix : CD (Ty × Val) :=
  .cons "backbone_class" (.term (.tStr, .vStr "B"))
    (.cons "backbone" (.dict (.cons "y" (.term (.tInt, .vInt 5)) .nil)) .nil)

/-! ## Claims -/

/-- C1: end-to-end selector unlocking. For the root configuration whose
`backbone_class` selector defaults to the missing sentinel and the registry
containing schemas `A{x: int = 1}` and `B{y: int = 2}`, running `parse_args`
on the token list `["--backbone_class", "B", "--backbone.y", "5"]`
terminates successfully and returns a typed root whose `backbone` field is an
instance of schema `B` with field `y` equal to `5`. -/
theorem C1_selector_unlocking :
    parse_args regAB 20 noLoad rootCfg ["--backbone_class", "B", "--backbone.y", "5"] =
      .ok (.cons "backbone_class" (.term (.vStr "B"))
            (.cons "backbone" (.inst "B" (.cons "y" (.term (.vInt 5)) .nil)) .nil)) := by
  decide

/-- C7: tuple coercion. `arg_as_tuple` returns the evaluated literal exactly
when it is a tuple: a successful result is always a tuple, a literal
evaluating to a tuple is accepted as is, and every other token — one
evaluating to a non-tuple such as the list literal `"[1, 2]"`, or a
malformed literal — is rejected with the invalid-argument error. Concretely,
`"(1, 2)"` coerces to the 2-tuple of integers `1` and `2`. -/
theorem C7_tuple_coercion :
    (∀ s v, arg_as_tuple s = .ok v → ∃ xs, v = Val.vTuple xs) ∧
    (∀ s xs, literal_eval s = some (.vTuple xs) → arg_as_tuple s = .ok (.vTuple xs)) ∧
    (∀ s, (∀ xs, literal_eval s ≠ some (.vTuple xs)) →
      arg_as_tuple s = .error .invalidArgument) ∧
    arg_as_tuple "(1, 2)" = .ok (.vTuple (.cons (.vInt 1) (.cons (.vInt 2) .nil))) ∧
    arg_as_tuple "[1, 2]" = .error .invalidArgument := by
  refine ⟨?_, ?_, ?_, by decide, by decide⟩
  · intro s v h
    unfold arg_as_tuple at h
    cases hl : literal_eval s with
    | none => rw [hl] at h; exact absurd h (by simp)
    | some w =>
      rw [hl] at h
      cases w with
      | vTuple xs => exact ⟨xs, (Except.ok.inj h).symm⟩
      | vMissing => exact absurd h (by simp)
      | vNone => exact absurd h (by simp)
      | vBool b => exact absurd h (by simp)
      | vInt n => exact absurd h (by simp)
      | vStr s => exact absurd h (by simp)
      | vList xs => exact absurd h (by simp)
  · intro s xs h
    unfold arg_as_tuple
    rw [h]
  · intro s h
    unfold arg_as_tuple
    cases hl : literal_eval s with
    | none => rfl
    | some w => cases w <;> first | rfl | exact absurd hl (h _)

/-- Witness for C7: the general clauses applied at the concrete tokens
`"(1, 2)"` (a tuple literal) and `"[1, 2]"` (not a tuple literal). -/
theorem C7_tuple_coercion_witness :
    arg_as_tuple "(1, 2)" = .ok (.vTuple (.cons (.vInt 1) (.cons (.vInt 2) .nil))) ∧
    arg_as_tuple "[1, 2]" = .error .invalidArgument :=
  ⟨C7_tuple_coercion.2.1 "(1, 2)" _ (by decide),
   C7_tuple_coercion.2.2.1 "[1, 2]" (by
    intro xs hx
    rw [show literal_eval "[1, 2]" =
        some (.vList (.cons (.vInt 1) (.cons (.vInt 2) .nil))) from by decide] at hx
    exact Val.noConfusion (Option.some.inj hx))⟩

/-- Helper: with an empty token list the first loop iteration can never pass
the progress check — the residual count (`≥ 0`) never strictly decreases
below the initial count `0` — so the loop always raises. -/
theorem parse_loop_empty_errors (reg : Registry) (sfuel : Nat) (cfg : CD Val) :
    ∃ e, parse_loop reg sfuel [] 1 cfg none 0 = .error e := by
  unfold parse_loop
  cases hri : run_iteration reg sfuel cfg [] with
  | error e => exact ⟨e, by simp [hri]⟩
  | ok p => exact ⟨.stalled, by simp [hri, contFlag, Nat.zero_le]⟩

/-- C10 (counterexample to the claim as stated): with an empty token list the
error raised is not always `StalledResolution` — for a configuration whose
sole entry is the missing sentinel, the surface key receives no value and
the unresolved-argument check fires first. -/
theorem C10_counterexample :
    parse_args regAB 20 noLoad cfgOneMissing [] = .error (.unresolvedArgument "a") ∧
    PErr.unresolvedArgument "a" ≠ PErr.stalled := by
  decide

/-- C10 (amended): for every configuration, registry and loader, `parse_args`
with an explicitly empty token list never returns successfully: the first
iteration's residual count (zero) is not strictly smaller than the initial
token count (zero) while the continue flag is still set. The error raised is
`StalledResolution` when every surface key received a value (second
conjunct, the all-defaults configuration), but an earlier failure such as
`UnresolvedArgument` can preempt it. -/
theorem C10_empty_args_never_succeeds :
    (∀ (reg : Registry) (sfuel : Nat) (load : String → Option (CD Val)) (cfg : MD),
      ∃ e, parse_args reg sfuel load cfg [] = .error e) ∧
    parse_args regAB 20 noLoad cfgOneInt [] = .error .stalled := by
  constructor
  · intro reg sfuel load cfg
    unfold parse_args
    cases hf : (if dcontains "cfg_file" (to_dict_format cfg) then
        apply_cfg_file load (to_dict_format cfg) [] else .ok (to_dict_format cfg)) with
    | error e => exact ⟨e, by simp [hf]⟩
    | ok cfg₁ =>
      obtain ⟨e, he⟩ := parse_loop_empty_errors reg sfuel cfg₁
      refine ⟨e, by simp [hf, he]⟩
  · decide

/-- C3: stall detection. If an iteration that is set to continue
(`contFlag u = true`) parses successfully but its residual unparsed-token
count did not strictly decrease below the previous count `nb`, the loop
raises `StalledResolution`. In particular (second conjunct), supplying a
token matching no surface key, with no unresolved selector left to unlock
new keys, raises `StalledResolution` rather than looping forever. -/
theorem C3_stall_detection :
    (∀ (reg : Registry) (sfuel : Nat) (args : List String) (fuel : Nat) (cfg : CD Val)
      (u : Option (List String)) (nb : Nat) (ns : List (String × Val)) (unp : List String),
      contFlag u = true →
      run_iteration reg sfuel cfg args = .ok (ns, unp) →
      nb ≤ unp.length →
      parse_loop reg sfuel args (fuel + 1) cfg u nb = .error .stalled) ∧
    parse_args regEmpty 20 noLoad cfgOneInt ["--junk"] = .error .stalled := by
  constructor
  · intro reg sfuel args fuel cfg u nb ns unp hc hri hle
    unfold parse_loop
    simp [hri, hc, hle]
  · decide

/-- Witness for C3: the general stall clause applied to the concrete
configuration `{a: 1}` and the unknown token `--junk`, whose residual count
(one) does not decrease below the previous count (one). -/
theorem C3_stall_detection_witness :
    contFlag (some ["--junk"]) = true ∧
    run_iteration regEmpty 20 (.cons "a" (.term (.vInt 1)) .nil) ["--junk"] =
      .ok ([("a", .vInt 1)], ["--junk"]) ∧
    1 ≤ 1 ∧
    parse_loop regEmpty 20 ["--junk"] 3 (.cons "a" (.term (.vInt 1)) .nil)
      (some ["--junk"]) 1 = .error .stalled :=
  ⟨by decide, by decide, by decide,
   C3_stall_detection.1 regEmpty 20 ["--junk"] 2 (.cons "a" (.term (.vInt 1)) .nil)
     (some ["--junk"]) 1 [("a", .vInt 1)] ["--junk"]
     (by decide) (by decide) (by decide)⟩

/-- C8: the unresolved-argument check. After a successful parse within an
iteration, if some key of the argument surface (the flattened expanded
configuration) is absent from the parsed result, `run_iteration` raises the
unresolved-argument error; if every surface key received a value, no such
error is raised and the iteration returns the parsed result. -/
theorem C8_unresolved_check :
    ∀ (reg : Registry) (sfuel : Nat) (cfg : CD Val) (args : List String)
      (acfg : CD (Ty × Val)) (ns : List (String × Val)) (unp : List String),
      add_default_args reg sfuel (to_arg_format cfg) = .ok acfg →
      parse_known_args (deep_to_flat acfg) args = .ok (ns, unp) →
      ((∃ k ∈ dkeys (deep_to_flat acfg), nsLookup k ns = none) →
        ∃ k', run_iteration reg sfuel cfg args = .error (.unresolvedArgument k')) ∧
      ((∀ k ∈ dkeys (deep_to_flat acfg), (nsLookup k ns).isSome) →
        run_iteration reg sfuel cfg args = .ok (ns, unp)) := by
  intro reg sfuel cfg args acfg ns unp hada hpka
  constructor
  · intro ⟨k, hk, hnone⟩
    cases hfu : firstUnsupplied (dkeys (deep_to_flat acfg)) ns with
    | none =>
      exfalso
      have := List.find?_eq_none.mp hfu k hk
      simp [hnone] at this
    | some k' =>
      refine ⟨k', ?_⟩
      unfold run_iteration
      simp [hada, hpka, hfu]
  · intro hall
    cases hfu : firstUnsupplied (dkeys (deep_to_flat acfg)) ns with
    | none =>
      unfold run_iteration
      simp [hada, hpka, hfu]
    | some k' =>
      exfalso
      have hp := List.find?_some hfu
      have hm := List.mem_of_find?_eq_some hfu
      have := hall k' hm
      simp at hp
      simp [hp] at this

/-- Witness for C8: the no-missing-key clause applied to the concrete
configuration `{a: 1}` parsed with no tokens (the default covers the single
surface key), and the missing-key clause applied to `{a: MISSING}`. -/
theorem C8_unresolved_check_witness :
    run_iteration regEmpty 20 (.cons "a" (.term (.vInt 1)) .nil) [] =
      .ok ([("a", .vInt 1)], []) ∧
    (∃ k', run_iteration regEmpty 20 (.cons "a" (.term .vMissing) .nil) [] =
      .error (.unresolvedArgument k')) :=
  ⟨(C8_unresolved_check regEmpty 20 (.cons "a" (.term (.vInt 1)) .nil) []
      (.cons "a" (.term (.tInt, .vInt 1)) .nil) [("a", .vInt 1)] []
      (by decide) (by decide)).2 (by decide),
   (C8_unresolved_check regEmpty 20 (.cons "a" (.term .vMissing) .nil) []
      (.cons "a" (.term (.tStr, .vMissing)) .nil) [] []
      (by decide) (by decide)).1 ⟨"a", by decide, by decide⟩⟩

/-! ### The loop's fuel is irrelevant beyond `len(args) + 1` iterations -/

/-- Coercion never yields the loop-fuel marker. -/
theorem coerce_ne_oof (ty : Ty) (tok : String) : coerce ty tok ≠ .error .outOfFuel := by
  cases ty <;> simp only [coerce, str2bool, arg_as_tuple] <;>
    (repeat' split) <;> simp

/-- Surface construction never yields the loop-fuel marker. -/
theorem gas_ne_oof : ∀ (cfg : CD (Ty × Val)), get_arg_surface cfg ≠ .error .outOfFuel
  | .nil => by simp [get_arg_surface]
  | .cons k v t => by
    cases v with
    | term tv =>
      simp only [get_arg_surface]
      cases h : get_arg_surface t with
      | error e => intro hc; exact gas_ne_oof t (by simp_all)
      | ok r => simp
    | dict m => simp [get_arg_surface]

/-- Token scanning never yields the loop-fuel marker. -/
theorem scan_ne_oof (surface : List (String × Ty × Val)) :
    ∀ (args : List String) (ns : List (String × Val)) (unp : List String),
      scanTokens surface args ns unp ≠ .error .outOfFuel
  | [], ns, unp => by simp [scanTokens]
  | t :: rest, ns, unp => by
    simp only [scanTokens]
    cases hf : findFlag surface t with
    | none => dsimp only; exact scan_ne_oof surface rest ns (unp ++ [t])
    | some p =>
      obtain ⟨k, ty, d⟩ := p
      dsimp only
      cases rest with
      | nil => simp
      | cons v rest' =>
        dsimp only
        cases hc : coerce ty v with
        | error e =>
          intro hcon
          exact coerce_ne_oof ty v (by simp_all)
        | ok val => dsimp only; exact scan_ne_oof surface rest' (nsInsert ns k val) unp

/-- `parse_known_args` never yields the loop-fuel marker. -/
theorem pka_ne_oof (cfg : CD (Ty × Val)) (args : List String) :
    parse_known_args cfg args ≠ .error .outOfFuel := by
  simp only [parse_known_args]
  cases hs : get_arg_surface cfg with
  | error e => intro hc; exact gas_ne_oof cfg (by simp_all)
  | ok surface => exact scan_ne_oof surface args _ _

/-- `adaGo` never yields the loop-fuel marker, given the recursive call never
does. -/
theorem adaGo_ne_oof (reg : Registry) (recurse : CD (Ty × Val) → Except PErr (CD (Ty × Val)))
    (hrec : ∀ m, recurse m ≠ .error .outOfFuel) (cfgFull : CD (Ty × Val)) :
    ∀ (items res : CD (Ty × Val)), adaGo reg recurse cfgFull items res ≠ .error .outOfFuel
  | .nil, res => by simp [adaGo]
  | .cons k v t, res => by
    cases v with
    | dict m =>
      simp only [adaGo]
      split
      · rename_i e heq
        intro hc
        simp only [Except.error.injEq] at hc
        rw [hc] at heq
        exact hrec m heq
      · exact adaGo_ne_oof reg recurse hrec cfgFull t _
    | term tv =>
      simp only [adaGo]
      repeat' split
      all_goals solve
        | simp
        | exact adaGo_ne_oof reg recurse hrec cfgFull t _
        | (rename_i e heq; intro hc; simp only [Except.error.injEq] at hc;
           rw [hc] at heq; exact hrec _ heq)

/-- `add_default_args` never yields the loop-fuel marker (its own exhaustion
is `RecursionError`). -/
theorem ada_ne_oof (reg : Registry) :
    ∀ (fuel : Nat) (cfg : CD (Ty × Val)),
      add_default_args reg fuel cfg ≠ .error .outOfFuel
  | 0, _ => by simp [add_default_args]
  | fuel + 1, cfg => by
    simp only [add_default_args]
    exact adaGo_ne_oof reg _ (fun m => ada_ne_oof reg fuel m) cfg cfg .nil

/-- The first pass of `flat_to_deep` never yields the loop-fuel marker. -/
theorem ftdPhase1_ne_oof {α : Type} :
    ∀ (items res : CD α), ftdPhase1 items res ≠ .error .outOfFuel
  | .nil, res => by simp [ftdPhase1]
  | .cons k v t, res => by
    simp only [ftdPhase1]
    by_cases hd : hasDot k = true
    · simp only [hd, if_true]
      cases hl : dlookup (dotRoot k) res with
      | none => exact ftdPhase1_ne_oof t _
      | some w =>
        cases w with
        | dict m => exact ftdPhase1_ne_oof t _
        | term a => simp
    · simp only [Bool.not_eq_true] at hd
      simp only [hd, Bool.false_eq_true, if_false]
      exact ftdPhase1_ne_oof t _

/-- The second pass of `flat_to_deep` never yields the loop-fuel marker,
given the recursive call never does. -/
theorem ftdMap_ne_oof {α : Type} (rec : CD α → Except PErr (CD α))
    (hrec : ∀ m, rec m ≠ .error .outOfFuel) :
    ∀ (items : CD α), ftdMap rec items ≠ .error .outOfFuel
  | .nil => by simp [ftdMap]
  | .cons k v t => by
    cases v with
    | dict m =>
      simp only [ftdMap]
      cases hr : rec m with
      | error e => intro hc; exact hrec m (by simp_all)
      | ok m' =>
        cases hm : ftdMap rec t with
        | error e => intro hc; exact ftdMap_ne_oof rec hrec t (by simp_all)
        | ok r => simp
    | term a =>
      simp only [ftdMap]
      cases hm : ftdMap rec t with
      | error e => intro hc; exact ftdMap_ne_oof rec hrec t (by simp_all)
      | ok r => simp

/-- `flat_to_deep` never yields the loop-fuel marker (its own exhaustion is
`RecursionError`). -/
theorem ftdFuel_ne_oof {α : Type} :
    ∀ (fuel : Nat) (cfg : CD α), ftdFuel fuel cfg ≠ .error .outOfFuel
  | 0, _ => by simp [ftdFuel]
  | fuel + 1, cfg => by
    simp only [ftdFuel]
    cases hp : ftdPhase1 cfg CD.nil with
    | error e => intro hc; exact ftdPhase1_ne_oof cfg .nil (by simp_all)
    | ok res => exact ftdMap_ne_oof _ (fun m => ftdFuel_ne_oof fuel m) res

/-- One loop iteration never yields the loop-fuel marker. -/
theorem run_iteration_ne_oof (reg : Registry) (sfuel : Nat) (cfg : CD Val)
    (args : List String) : run_iteration reg sfuel cfg args ≠ .error .outOfFuel := by
  unfold run_iteration
  cases ha : add_default_args reg sfuel (to_arg_format cfg) with
  | error e =>
    intro hc
    simp at hc
    subst hc
    exact ada_ne_oof reg sfuel (to_arg_format cfg) ha
  | ok acfg =>
    cases hp : parse_known_args (deep_to_flat acfg) args with
    | error e =>
      simp only [hp]
      intro hc
      simp at hc
      subst hc
      exact pka_ne_oof (deep_to_flat acfg) args hp
    | ok p =>
      obtain ⟨ns, unp⟩ := p
      simp only [hp]
      cases hfu : firstUnsupplied (dkeys (deep_to_flat acfg)) ns with
      | some k => simp [hfu]
      | none => simp [hfu]

/-- `flat_to_deep` never yields the loop-fuel marker. -/
theorem flat_to_deep_ne_oof {α : Type} (cfg : CD α) :
    flat_to_deep cfg ≠ .error .outOfFuel :=
  ftdFuel_ne_oof (measCD cfg + 1) cfg

/-- Fuel irrelevance for the resolution loop: the loop reaches its answer
within `nb + 1` iterations, because the progress check forces the residual
count `nb` to strictly decrease on every continuing iteration. -/
theorem parse_loop_fuel_stable (reg : Registry) (sfuel : Nat) (args : List String) :
    ∀ (nb fuel fuel' : Nat) (cfg : CD Val) (u : Option (List String)),
      nb + 1 ≤ fuel → nb + 1 ≤ fuel' →
      parse_loop reg sfuel args fuel cfg u nb = parse_loop reg sfuel args fuel' cfg u nb := by
  intro nb
  induction nb using Nat.strong_induction_on with
  | _ nb ih =>
    intro fuel fuel' cfg u h h'
    obtain ⟨f, rfl⟩ : ∃ f, fuel = f + 1 := ⟨fuel - 1, by omega⟩
    obtain ⟨f', rfl⟩ : ∃ f', fuel' = f' + 1 := ⟨fuel' - 1, by omega⟩
    simp only [parse_loop]
    cases hri : run_iteration reg sfuel cfg args with
    | error e => rfl
    | ok p =>
      obtain ⟨ns, unp⟩ := p
      dsimp only
      by_cases hcond : (contFlag u && decide (unp.length ≥ nb)) = true
      · simp [hcond]
      · simp only [Bool.not_eq_true] at hcond
        simp only [hcond, Bool.false_eq_true, if_false]
        cases hftd : flat_to_deep (nsToCD ns) with
        | error e => rfl
        | ok cfg' =>
          cases hcont : contFlag u with
          | false => simp [hcont]
          | true =>
            simp only [hcont, if_true]
            have hlt : unp.length < nb := by
              rw [hcont] at hcond
              simpa using hcond
            exact ih unp.length hlt f f' cfg' (some unp) (by omega) (by omega)

/-- With `nb + 1` iterations of fuel the loop never runs out. -/
theorem parse_loop_ne_oof (reg : Registry) (sfuel : Nat) (args : List String) :
    ∀ (nb fuel : Nat) (cfg : CD Val) (u : Option (List String)),
      nb + 1 ≤ fuel →
      parse_loop reg sfuel args fuel cfg u nb ≠ .error .outOfFuel := by
  intro nb
  induction nb using Nat.strong_induction_on with
  | _ nb ih =>
    intro fuel cfg u h
    obtain ⟨f, rfl⟩ : ∃ f, fuel = f + 1 := ⟨fuel - 1, by omega⟩
    simp only [parse_loop]
    cases hri : run_iteration reg sfuel cfg args with
    | error e =>
      intro hc
      simp only [Except.error.injEq] at hc
      rw [hc] at hri
      exact run_iteration_ne_oof reg sfuel cfg args hri
    | ok p =>
      obtain ⟨ns, unp⟩ := p
      dsimp only
      by_cases hcond : (contFlag u && decide (unp.length ≥ nb)) = true
      · simp [hcond]
      · simp only [Bool.not_eq_true] at hcond
        simp only [hcond, Bool.false_eq_true, if_false]
        cases hftd : flat_to_deep (nsToCD ns) with
        | error e =>
          intro hc
          simp only [Except.error.injEq] at hc
          rw [hc] at hftd
          exact flat_to_deep_ne_oof (nsToCD ns) hftd
        | ok cfg' =>
          cases hcont : contFlag u with
          | false => simp [hcont]
          | true =>
            simp only [hcont, if_true]
            have hlt : unp.length < nb := by
              rw [hcont] at hcond
              simpa using hcond
            exact ih unp.length hlt f cfg' (some unp) (by omega)

/-- C4 (counterexample to the claim's bound): with an empty token list (initial
count zero), one loop iteration still executes — fuel equal to the token
count (zero iterations) is exhausted, while one iteration reaches the
stalled-resolution error. The cap is therefore the token count plus one, not
the token count. -/
theorem C4_counterexample :
    parse_loop regAB 20 [] 0 (.cons "a" (.term (.vInt 1)) .nil) none 0 = .error .outOfFuel ∧
    parse_loop regAB 20 [] 1 (.cons "a" (.term (.vInt 1)) .nil) none 0 = .error .stalled := by
  decide

/-- C4 (amended): the resolution loop always terminates (returns or raises)
within `len(args) + 1` iterations: running it with any fuel of at least
`len(args) + 1` iterations gives the same outcome (first conjunct), and that
fuel is never exhausted (second conjunct) — because the progress check makes
the residual unparsed-token count strictly decrease on every continuing
iteration. -/
theorem C4_iteration_bound :
    (∀ (reg : Registry) (sfuel : Nat) (args : List String) (cfg : CD Val) (fuel fuel' : Nat),
      args.length + 1 ≤ fuel → args.length + 1 ≤ fuel' →
      parse_loop reg sfuel args fuel cfg none args.length =
        parse_loop reg sfuel args fuel' cfg none args.length) ∧
    (∀ (reg : Registry) (sfuel : Nat) (args : List String) (cfg : CD Val),
      parse_loop reg sfuel args (args.length + 1) cfg none args.length ≠ .error .outOfFuel) :=
  ⟨fun reg sfuel args cfg fuel fuel' h h' =>
    parse_loop_fuel_stable reg sfuel args args.length fuel fuel' cfg none h h',
   fun reg sfuel args cfg =>
    parse_loop_ne_oof reg sfuel args args.length (args.length + 1) cfg none (by omega)⟩

/-- Witness for C4: fuel 2 and fuel 9 agree on a one-token run, and fuel 2 is
not exhausted there. -/
theorem C4_iteration_bound_witness :
    parse_loop regAB 20 ["--junk"] 2 (.cons "a" (.term (.vInt 1)) .nil) none 1 =
      parse_loop regAB 20 ["--junk"] 9 (.cons "a" (.term (.vInt 1)) .nil) none 1 ∧
    parse_loop regAB 20 ["--junk"] 2 (.cons "a" (.term (.vInt 1)) .nil) none 1 ≠
      .error .outOfFuel :=
  ⟨C4_iteration_bound.1 regAB 20 ["--junk"] (.cons "a" (.term (.vInt 1)) .nil) 2 9
     (by decide) (by decide),
   C4_iteration_bound.2 regAB 20 ["--junk"] (.cons "a" (.term (.vInt 1)) .nil)⟩

/-! ### Dictionary lemmas -/

/-- Assignment then lookup of the same key. -/
theorem dlookup_dinsert_self {α : Type} : ∀ (m : CD α) (k : String) (v : CV α),
    dlookup k (dinsert m k v) = some v
  | .nil, k, v => by simp [dinsert, dlookup]
  | .cons k' v' t, k, v => by
    by_cases h : k' = k
    · simp [dinsert, dlookup, h]
    · simp [dinsert, dlookup, h, dlookup_dinsert_self t k v]

/-- Assignment does not affect lookups of other keys. -/
theorem dlookup_dinsert_ne {α : Type} : ∀ (m : CD α) {k k' : String} (v : CV α),
    k' ≠ k → dlookup k (dinsert m k' v) = dlookup k m
  | .nil, k, k', v, h => by simp [dinsert, dlookup, h]
  | .cons k'' v'' t, k, k', v, h => by
    by_cases h2 : k'' = k'
    · subst h2
      simp [dinsert, dlookup, h]
    · simp only [dinsert, if_neg h2]
      by_cases h3 : k'' = k
      · simp [dlookup, h3]
      · simp [dlookup, h3, dlookup_dinsert_ne t v h]

/-- Updating with entries not containing `k` does not affect `k`. -/
theorem dUpdate_lookup_not_mem {α : Type} {k : String} :
    ∀ (b a : CD α), dcontains k b = false → dlookup k (dUpdate a b) = dlookup k a
  | .nil, a, _ => by simp [dUpdate]
  | .cons k' v' t, a, hc => by
    by_cases h : k' = k
    · exfalso
      subst h
      simp [dcontains, dlookup] at hc
    · have hc' : dcontains k t = false := by
        simpa [dcontains, dlookup, h] using hc
      simp only [dUpdate]
      rw [dUpdate_lookup_not_mem t (dinsert a k' v') hc']
      exact dlookup_dinsert_ne a v' h

/-- Right-biased update: a key present in `b` (whose keys are distinct) ends
up with `b`'s value. -/
theorem dUpdate_lookup_mem {α : Type} {k : String} {v : CV α} :
    ∀ (b a : CD α), nodupKeysD b = true → dlookup k b = some v →
      dlookup k (dUpdate a b) = some v
  | .nil, a, _, h => by simp [dlookup] at h
  | .cons k' v' t, a, hnd, hl => by
    have hnd' : dcontains k' t = false ∧ nodupKeysD t = true := by
      simpa [nodupKeysD] using hnd
    simp only [dUpdate]
    by_cases h : k' = k
    · subst h
      have hv : v' = v := by simpa [dlookup] using hl
      subst hv
      rw [dUpdate_lookup_not_mem t (dinsert a k' v') hnd'.1]
      exact dlookup_dinsert_self a k' v'
    · have hl' : dlookup k t = some v := by simpa [dlookup, h] using hl
      exact dUpdate_lookup_mem t (dinsert a k' v') hnd'.2 hl'

/-- C6: the file-override merger. If the resolved config-file value is the
missing sentinel, `apply_cfg_file` returns the configuration unchanged
(first conjunct). Otherwise it right-bias-merges the loaded file's flattened
entries over the configuration's flattened entries and rebuilds the nested
form; in particular every flattened key set by the file carries the file's
value in the merged result (second conjunct). End to end (third conjunct):
for the key `k` with default `0`, the file setting `k = 7`, and no
command-line override of `k`, resolution yields `k = 7` while the
command-line value still overrides `a`. -/
theorem C6_file_override :
    (∀ (load : String → Option (CD Val)) (cfg : CD Val) (args : List String)
      (dflt : CV Val),
      dlookup "cfg_file" cfg = some dflt →
      resolveCfgFileArg args dflt = .ok (.term .vMissing) →
      apply_cfg_file load cfg args = .ok cfg) ∧
    (∀ (load : String → Option (CD Val)) (cfg : CD Val) (args : List String)
      (dflt : CV Val) (path : String) (loaded : CD Val),
      dlookup "cfg_file" cfg = some dflt →
      resolveCfgFileArg args dflt = .ok (.term (.vStr path)) →
      load path = some loaded →
      apply_cfg_file load cfg args =
        flat_to_deep (dUpdate (deep_to_flat cfg) (deep_to_flat loaded)) ∧
      (∀ k v, nodupKeysD (deep_to_flat loaded) = true →
        dlookup k (deep_to_flat loaded) = some v →
        dlookup k (dUpdate (deep_to_flat cfg) (deep_to_flat loaded)) = some v)) ∧
    parse_args regEmpty 20 loadK7 cfgWithFile ["--a", "9"] =
      .ok (.cons "cfg_file" (.term (.vStr "f.yaml"))
            (.cons "k" (.term (.vInt 7)) (.cons "a" (.term (.vInt 9)) .nil))) := by
  refine ⟨?_, ?_, by decide⟩
  · intro load cfg args dflt hl hr
    unfold apply_cfg_file
    simp [hl, hr]
  · intro load cfg args dflt path loaded hl hr hload
    constructor
    · unfold apply_cfg_file
      simp [hl, hr, hload]
    · intro k v hnd hlk
      exact dUpdate_lookup_mem (deep_to_flat loaded) (deep_to_flat cfg) hnd hlk

/-- Witness for C6: the unchanged case on a configuration whose `cfg_file`
entry is the missing sentinel, and the merge case on the concrete
file-override scenario with the file value visible at key `k`. -/
theorem C6_file_override_witness :
    apply_cfg_file noLoad (.cons "cfg_file" (.term .vMissing) .nil) [] =
      .ok (.cons "cfg_file" (.term .vMissing) .nil) ∧
    apply_cfg_file loadK7 (to_dict_format cfgWithFile) ["--a", "9"] =
      flat_to_deep (dUpdate (deep_to_flat (to_dict_format cfgWithFile))
        (deep_to_flat (.cons "k" (.term (.vInt 7)) .nil))) ∧
    dlookup "k" (dUpdate (deep_to_flat (to_dict_format cfgWithFile))
        (deep_to_flat (.cons "k" (.term (.vInt 7)) .nil))) = some (.term (.vInt 7)) :=
  ⟨C6_file_override.1 noLoad (.cons "cfg_file" (.term .vMissing) .nil) []
     (.term .vMissing) (by decide) (by decide),
   (C6_file_override.2.1 loadK7 (to_dict_format cfgWithFile) ["--a", "9"]
     (.term (.vStr "f.yaml")) "f.yaml" (.cons "k" (.term (.vInt 7)) .nil)
     (by decide) (by decide) (by decide)).1,
   (C6_file_override.2.1 loadK7 (to_dict_format cfgWithFile) ["--a", "9"]
     (.term (.vStr "f.yaml")) "f.yaml" (.cons "k" (.term (.vInt 7)) .nil)
     (by decide) (by decide) (by decide)).2 "k" (.term (.vInt 7))
     (by decide) (by decide)⟩

/-! ### String facts about the `"_class"` suffix -/

/-- A key formed by appending the reserved suffix ends with it. -/
theorem endsWithClass_append (s : String) : endsWithClass (s ++ "_class") = true := by
  unfold endsWithClass isSuffixL
  rw [String.data_append, List.reverse_append, List.isPrefixOf_iff_prefix]
  exact List.prefix_append _ _

/-- Stripping the suffix recovers the stem. -/
theorem stripClass_append (s : String) : stripClass (s ++ "_class") = s := by
  unfold stripClass
  rw [String.data_append]
  have hlen : (s.data ++ "_class".data).length - 6 = s.data.length := by
    simp [List.length_append]
  rw [hlen, List.take_left]

/-- A key ending with the suffix is its stem plus the suffix. -/
theorem stripClass_spec {j : String} (h : endsWithClass j = true) :
    stripClass j ++ "_class" = j := by
  unfold endsWithClass isSuffixL at h
  rw [List.isPrefixOf_iff_prefix] at h
  obtain ⟨r, hr⟩ := h
  have hj : j.data = r.reverse ++ "_class".data := by
    have := congrArg List.reverse hr
    simpa using this.symm
  have hstr : stripClass j = String.mk r.reverse := by
    unfold stripClass
    rw [hj]
    have hlen : (r.reverse ++ "_class".data).length - 6 = r.reverse.length := by
      simp [List.length_append]
    rw [hlen, List.take_left]
  rw [hstr]
  show String.mk (r.reverse ++ "_class".data) = j
  rw [← hj]

/-- Appending the nonempty suffix changes the key. -/
theorem append_class_ne (s : String) : s ++ "_class" ≠ s := by
  intro h
  have := congrArg (fun x => x.data.length) h
  simp [String.data_append] at this

/-- The stem of a selector key differs from the selector key. -/
theorem stripClass_ne_self {j : String} (h : endsWithClass j = true) :
    stripClass j ≠ j := by
  intro he
  have := stripClass_spec h
  rw [he] at this
  exact append_class_ne j this

/-! ### Decomposition of a dictionary at a key -/

/-- Splitting a dictionary at the first occurrence of a key. -/
theorem dlookup_split {α : Type} {k : String} {v : CV α} :
    ∀ (cfg : CD α), dlookup k cfg = some v →
      ∃ A B, cfg = dAppend A (.cons k v B) ∧ dcontains k A = false
  | .nil, h => by simp [dlookup] at h
  | .cons k' v' t, h => by
    by_cases he : k' = k
    · subst he
      have hv : v' = v := by simpa [dlookup] using h
      subst hv
      exact ⟨.nil, t, by simp [dAppend], by simp [dcontains, dlookup]⟩
    · have h' : dlookup k t = some v := by simpa [dlookup, he] using h
      obtain ⟨A, B, hAB, hA⟩ := dlookup_split t h'
      exact ⟨.cons k' v' A, B, by simp [dAppend, hAB],
        by simpa [dcontains, dlookup, he] using hA⟩

/-- Lookup across a concatenation, left side first. -/
theorem dlookup_dAppend {α : Type} (k : String) :
    ∀ (A B : CD α), dlookup k (dAppend A B) =
      match dlookup k A with
      | some v => some v
      | none => dlookup k B
  | .nil, B => by simp [dAppend, dlookup]
  | .cons k' v' t, B => by
    by_cases he : k' = k
    · simp [dAppend, dlookup, he]
    · simp [dAppend, dlookup, he, dlookup_dAppend k t B]

/-- Keys of a concatenation. -/
theorem dcontains_dAppend {α : Type} (k : String) (A B : CD α) :
    dcontains k (dAppend A B) = (dcontains k A || dcontains k B) := by
  unfold dcontains
  rw [dlookup_dAppend]
  cases dlookup k A <;> simp

/-- Distinct keys across a split: the distinguished key occurs in neither
part. -/
theorem nodup_split {α : Type} {k : String} {v : CV α} :
    ∀ (A B : CD α), nodupKeysD (dAppend A (.cons k v B)) = true →
      dcontains k A = false ∧ dcontains k B = false ∧
      nodupKeysD (dAppend A B) = true
  | .nil, B, h => by
    simp only [dAppend] at h ⊢
    have := (by simpa [nodupKeysD] using h : dcontains k B = false ∧ nodupKeysD B = true)
    exact ⟨by simp [dcontains, dlookup], this.1, this.2⟩
  | .cons k' v' t, B, h => by
    simp only [dAppend] at h ⊢
    have h' : dcontains k' (dAppend t (.cons k v B)) = false ∧
        nodupKeysD (dAppend t (.cons k v B)) = true := by
      simpa [nodupKeysD] using h
    obtain ⟨h1, h2, h3⟩ := nodup_split t B h'.2
    have hk'k : k' ≠ k := by
      intro he
      subst he
      rw [dcontains_dAppend] at h'
      simp [dcontains, dlookup] at h'
    refine ⟨?_, h2, ?_⟩
    · simpa [dcontains, dlookup, hk'k] using h1
    · have hck : dcontains k' (dAppend t B) = false := by
        rw [dcontains_dAppend]
        rw [dcontains_dAppend] at h'
        have := h'.1
        simp only [Bool.or_eq_false_iff] at this ⊢
        refine ⟨this.1, ?_⟩
        have := this.2
        simpa [dcontains, dlookup, Ne.symm hk'k] using this
      simp [nodupKeysD, hck, h3]

/-! ### Processing lemmas for `adaGo` -/

/-- `adaGo` processes a concatenation sequentially. -/
theorem adaGo_append (reg : Registry) (rec : CD (Ty × Val) → Except PErr (CD (Ty × Val)))
    (full : CD (Ty × Val)) :
    ∀ (A B res : CD (Ty × Val)),
      adaGo reg rec full (dAppend A B) res =
        match adaGo reg rec full A res with
        | .error e => .error e
        | .ok r => adaGo reg rec full B r
  | .nil, B, res => by simp [dAppend, adaGo]
  | .cons k v t, B, res => by
    cases v with
    | dict m =>
      simp only [dAppend, adaGo]
      cases hr : rec m with
      | error e => rfl
      | ok m' => exact adaGo_append reg rec full t B _
    | term tv =>
      simp only [dAppend, adaGo]
      by_cases hend : endsWithClass k = true
      · simp only [hend, if_true]
        by_cases hmiss : tv.2 = Val.vMissing
        · simp only [if_pos hmiss]
          exact adaGo_append reg rec full t B _
        · simp only [if_neg hmiss]
          cases htv : tv.2 with
          | vStr name =>
            dsimp only
            cases hreg : reg name with
            | none => rfl
            | some fields =>
              dsimp only
              cases hst : dlookup (stripClass k) full with
              | none =>
                dsimp only
                cases hr : rec (fieldsToCD fields) with
                | error e => rfl
                | ok sub => exact adaGo_append reg rec full t B _
              | some w =>
                cases w with
                | dict m2 =>
                  dsimp only
                  cases hr : rec (dUpdate (fieldsToCD fields) m2) with
                  | error e => rfl
                  | ok sub => exact adaGo_append reg rec full t B _
                | term a => rfl
          | vMissing => exact absurd htv hmiss
          | vNone => rfl
          | vBool b => rfl
          | vInt n => rfl
          | vTuple xs => rfl
          | vList xs => rfl
      · simp only [Bool.not_eq_true] at hend
        simp only [hend, Bool.false_eq_true, if_false]
        exact adaGo_append reg rec full t B _

/-- Invariance of a key's binding under processing items that cannot write
it: if `x` is not among the item keys and either `x` is bound to a terminal
in the full level (so a selector writing `x` would have raised the
invalid-override error) or no `x`-selector is among the items, then a
successful `adaGo` run leaves the binding of `x` in the accumulator
unchanged. -/
theorem adaGo_lookup_inv (reg : Registry) (rec : CD (Ty × Val) → Except PErr (CD (Ty × Val)))
    (full : CD (Ty × Val)) (x : String) :
    ∀ (items res out : CD (Ty × Val)),
      adaGo reg rec full items res = .ok out →
      dcontains x items = false →
      ((∃ W, dlookup x full = some (.term W)) ∨ dcontains (x ++ "_class") items = false) →
      dlookup x out = dlookup x res
  | .nil, res, out, hok, _, _ => by
    simp only [adaGo, Except.ok.injEq] at hok
    rw [hok]
  | .cons k v t, res, out, hok, hni, hside => by
    have hkx : k ≠ x := by
      intro he
      subst he
      simp [dcontains, dlookup] at hni
    have hni' : dcontains x t = false := by
      simpa [dcontains, dlookup, hkx] using hni
    have hside' : (∃ W, dlookup x full = some (.term W)) ∨
        dcontains (x ++ "_class") t = false := by
      cases hside with
      | inl h => exact .inl h
      | inr h =>
        refine .inr ?_
        by_cases he : k = x ++ "_class"
        · subst he; simp [dcontains, dlookup] at h
        · simpa [dcontains, dlookup, he] using h
    cases v with
    | dict m =>
      simp only [adaGo] at hok
      cases hr : rec m with
      | error e => rw [hr] at hok; exact absurd hok (by simp)
      | ok m' =>
        rw [hr] at hok
        rw [adaGo_lookup_inv reg rec full x t _ out hok hni' hside']
        exact dlookup_dinsert_ne res _ hkx
    | term tv =>
      simp only [adaGo] at hok
      by_cases hend : endsWithClass k = true
      · rw [hend] at hok
        simp only [if_true] at hok
        by_cases hmiss : tv.2 = Val.vMissing
        · rw [if_pos hmiss] at hok
          rw [adaGo_lookup_inv reg rec full x t _ out hok hni' hside']
          exact dlookup_dinsert_ne res _ hkx
        · rw [if_neg hmiss] at hok
          cases htv : tv.2 with
          | vStr name =>
            rw [htv] at hok
            dsimp only at hok
            cases hreg : reg name with
            | none => rw [hreg] at hok; exact absurd hok (by simp)
            | some fields =>
              rw [hreg] at hok
              dsimp only at hok
              have hsx : stripClass k ≠ x := by
                intro he
                have hkeq : k = x ++ "_class" := by
                  rw [← he]; exact (stripClass_spec hend).symm
                cases hside with
                | inl hW =>
                  obtain ⟨W, hW⟩ := hW
                  rw [← he] at hW
                  rw [hW] at hok
                  exact absurd hok (by simp)
                | inr hn =>
                  rw [← hkeq] at hn
                  simp [dcontains, dlookup] at hn
              cases hst : dlookup (stripClass k) full with
              | none =>
                rw [hst] at hok
                dsimp only at hok
                cases hr : rec (fieldsToCD fields) with
                | error e => rw [hr] at hok; exact absurd hok (by simp)
                | ok sub =>
                  rw [hr] at hok
                  rw [adaGo_lookup_inv reg rec full x t _ out hok hni' hside']
                  rw [dlookup_dinsert_ne _ _ hsx]
                  exact dlookup_dinsert_ne res _ hkx
              | some w =>
                cases w with
                | dict m2 =>
                  rw [hst] at hok
                  dsimp only at hok
                  cases hr : rec (dUpdate (fieldsToCD fields) m2) with
                  | error e => rw [hr] at hok; exact absurd hok (by simp)
                  | ok sub =>
                    rw [hr] at hok
                    rw [adaGo_lookup_inv reg rec full x t _ out hok hni' hside']
                    rw [dlookup_dinsert_ne _ _ hsx]
                    exact dlookup_dinsert_ne res _ hkx
                | term a =>
                  rw [hst] at hok
                  exact absurd hok (by simp)
          | vMissing => exact absurd htv hmiss
          | vNone => rw [htv] at hok; exact absurd hok (by simp)
          | vBool b => rw [htv] at hok; exact absurd hok (by simp)
          | vInt n => rw [htv] at hok; exact absurd hok (by simp)
          | vTuple xs => rw [htv] at hok; exact absurd hok (by simp)
          | vList xs => rw [htv] at hok; exact absurd hok (by simp)
      · simp only [Bool.not_eq_true] at hend
        rw [hend] at hok
        simp only [Bool.false_eq_true, if_false] at hok
        rw [adaGo_lookup_inv reg rec full x t _ out hok hni' hside']
        exact dlookup_dinsert_ne res _ hkx

/-- Key-distinctness distributes over concatenation, with disjointness. -/
theorem nodup_dAppend_parts {α : Type} :
    ∀ (A B : CD α), nodupKeysD (dAppend A B) = true →
      nodupKeysD A = true ∧ nodupKeysD B = true ∧
      (∀ x, dcontains x A = true → dcontains x B = false)
  | .nil, B, h => by
    refine ⟨rfl, by simpa [dAppend] using h, ?_⟩
    intro x hx
    simp [dcontains, dlookup] at hx
  | .cons k v t, B, h => by
    have h' : dcontains k (dAppend t B) = false ∧ nodupKeysD (dAppend t B) = true := by
      simpa [dAppend, nodupKeysD] using h
    obtain ⟨h1, h2, h3⟩ := nodup_dAppend_parts t B h'.2
    rw [dcontains_dAppend] at h'
    have hkt : dcontains k t = false := by
      have := h'.1
      simp only [Bool.or_eq_false_iff] at this
      exact this.1
    have hkB : dcontains k B = false := by
      have := h'.1
      simp only [Bool.or_eq_false_iff] at this
      exact this.2
    refine ⟨by simp [nodupKeysD, hkt, h1], h2, ?_⟩
    intro x hx
    by_cases he : k = x
    · subst he; exact hkB
    · exact h3 x (by simpa [dcontains, dlookup, he] using hx)

/-- Assignment preserves key distinctness. -/
theorem dinsert_nodup {α : Type} :
    ∀ (m : CD α) (k : String) (v : CV α),
      nodupKeysD m = true → nodupKeysD (dinsert m k v) = true
  | .nil, k, v, _ => by simp [dinsert, nodupKeysD, dcontains, dlookup]
  | .cons k' v' t, k, v, h => by
    have h' : dcontains k' t = false ∧ nodupKeysD t = true := by
      simpa [nodupKeysD] using h
    by_cases he : k' = k
    · subst he
      simp [dinsert, nodupKeysD, h'.1, h'.2]
    · have hc : dcontains k' (dinsert t k v) = false := by
        unfold dcontains
        rw [dlookup_dinsert_ne t v (by exact fun hh => he hh.symm)]
        exact h'.1
      simp [dinsert, he, nodupKeysD, hc, dinsert_nodup t k v h'.2]

/-- Updating preserves key distinctness. -/
theorem dUpdate_nodup {α : Type} :
    ∀ (b a : CD α), nodupKeysD a = true → nodupKeysD (dUpdate a b) = true
  | .nil, a, h => by simpa [dUpdate] using h
  | .cons k v t, a, h => by
    simp only [dUpdate]
    exact dUpdate_nodup t (dinsert a k v) (dinsert_nodup a k v h)

/-- Schema expansion preserves the binding of a terminal-valued key of a
duplicate-free level: the entry is copied and no later item may overwrite
it (a selector naming it as stem would raise the invalid-override error). -/
theorem ada_preserves_term (reg : Registry) :
    ∀ (fuel : Nat) (m m₂ : CD (Ty × Val)) (f : String) (V : Ty × Val),
      nodupKeysD m = true →
      add_default_args reg fuel m = .ok m₂ →
      dlookup f m = some (.term V) →
      dlookup f m₂ = some (.term V) := by
  intro fuel m m₂ f V hnd hok hf
  obtain ⟨g, rfl⟩ : ∃ g, fuel = g + 1 := by
    cases fuel with
    | zero => simp [add_default_args] at hok
    | succ g => exact ⟨g, rfl⟩
  simp only [add_default_args] at hok
  obtain ⟨A, B, hAB, hA⟩ := dlookup_split m hf
  rw [hAB] at hok hnd
  obtain ⟨hfA, hfB, _⟩ := nodup_split A B hnd
  rw [adaGo_append] at hok
  cases hA' : adaGo reg (add_default_args reg g) (dAppend A (.cons f (.term V) B)) A .nil with
  | error e => rw [hA'] at hok; exact absurd hok (by simp)
  | ok r₁ =>
    rw [hA'] at hok
    have hfull : dlookup f (dAppend A (.cons f (.term V) B)) = some (.term V) := by
      rw [← hAB]; exact hf
    simp only [adaGo] at hok
    by_cases hend : endsWithClass f = true
    · rw [hend] at hok
      simp only [if_true] at hok
      by_cases hmiss : V.2 = Val.vMissing
      · rw [if_pos hmiss] at hok
        rw [adaGo_lookup_inv reg _ _ f B _ m₂ hok hfB (.inl ⟨V, hfull⟩)]
        exact dlookup_dinsert_self r₁ f (.term V)
      · rw [if_neg hmiss] at hok
        cases htv : V.2 with
        | vStr name =>
          rw [htv] at hok
          dsimp only at hok
          cases hreg : reg name with
          | none => rw [hreg] at hok; exact absurd hok (by simp)
          | some fields =>
            rw [hreg] at hok
            dsimp only at hok
            cases hst : dlookup (stripClass f) (dAppend A (.cons f (.term V) B)) with
            | none =>
              rw [hst] at hok
              dsimp only at hok
              cases hr : add_default_args reg g (fieldsToCD fields) with
              | error e => rw [hr] at hok; exact absurd hok (by simp)
              | ok sub =>
                rw [hr] at hok
                rw [adaGo_lookup_inv reg _ _ f B _ m₂ hok hfB (.inl ⟨V, hfull⟩)]
                rw [dlookup_dinsert_ne _ _ (stripClass_ne_self hend)]
                exact dlookup_dinsert_self r₁ f (.term V)
            | some w =>
              cases w with
              | dict m2 =>
                rw [hst] at hok
                dsimp only at hok
                cases hr : add_default_args reg g (dUpdate (fieldsToCD fields) m2) with
                | error e => rw [hr] at hok; exact absurd hok (by simp)
                | ok sub =>
                  rw [hr] at hok
                  rw [adaGo_lookup_inv reg _ _ f B _ m₂ hok hfB (.inl ⟨V, hfull⟩)]
                  rw [dlookup_dinsert_ne _ _ (stripClass_ne_self hend)]
                  exact dlookup_dinsert_self r₁ f (.term V)
              | term a =>
                rw [hst] at hok
                exact absurd hok (by simp)
        | vMissing => exact absurd htv hmiss
        | vNone => rw [htv] at hok; exact absurd hok (by simp)
        | vBool b => rw [htv] at hok; exact absurd hok (by simp)
        | vInt n => rw [htv] at hok; exact absurd hok (by simp)
        | vTuple xs => rw [htv] at hok; exact absurd hok (by simp)
        | vList xs => rw [htv] at hok; exact absurd hok (by simp)
    · simp only [Bool.not_eq_true] at hend
      rw [hend] at hok
      simp only [Bool.false_eq_true, if_false] at hok
      rw [adaGo_lookup_inv reg _ _ f B _ m₂ hok hfB (.inl ⟨V, hfull⟩)]
      exact dlookup_dinsert_self r₁ f (.term V)

/-- Processing a selector item whose stem is bound to a dictionary in the
full level: the selector is copied and the stem receives the expansion of
the schema defaults overridden by the stem's existing entries. -/
theorem adaGo_sel_step (reg : Registry) (rec : CD (Ty × Val) → Except PErr (CD (Ty × Val)))
    (full : CD (Ty × Val)) (stem name : String) (selTy : Ty) (fields : Schema)
    (m rest acc : CD (Ty × Val))
    (hreg : reg name = some fields)
    (hstem : dlookup stem full = some (.dict m)) :
    adaGo reg rec full (.cons (stem ++ "_class") (.term (selTy, .vStr name)) rest) acc =
      match rec (dUpdate (fieldsToCD fields) m) with
      | .error e => .error e
      | .ok sub =>
        adaGo reg rec full rest
          (dinsert (dinsert acc (stem ++ "_class") (.term (selTy, .vStr name))) stem
            (.dict sub)) := by
  simp only [adaGo]
  rw [endsWithClass_append]
  simp only [if_true]
  rw [if_neg (by simp)]
  try dsimp only
  rw [hreg]
  try dsimp only
  rw [stripClass_append, hstem]

/-- C5: override precedence in schema expansion. If a configuration level
contains a selector `stem ++ "_class"` naming a registered schema that
declares field `f` (with default `D`), and the stem key already holds a
nested mapping binding `f` to the terminal `V`, then a successful
`add_default_args` run binds `f` to `V` under the stem in the result — the
value already present always wins over the schema default. -/
theorem C5_override_precedence :
    ∀ (reg : Registry) (fuel : Nat) (cfg res : CD (Ty × Val)) (stem name : String)
      (selTy : Ty) (fields : Schema) (f : String) (tf : Ty) (D : Val)
      (m : CD (Ty × Val)) (V : Ty × Val),
      nodupKeysD cfg = true →
      nodupKeysD m = true →
      nodupKeysD (fieldsToCD fields) = true →
      dlookup (stem ++ "_class") cfg = some (.term (selTy, .vStr name)) →
      reg name = some fields →
      ⟨f, tf, D⟩ ∈ fields →
      dlookup stem cfg = some (.dict m) →
      dlookup f m = some (.term V) →
      add_default_args reg fuel cfg = .ok res →
      ∃ sub, dlookup stem res = some (.dict sub) ∧ dlookup f sub = some (.term V) := by
  intro reg fuel cfg res stem name selTy fields f tf D m V
  intro hndcfg hndm hndfields hsel hreg hfmem hstem hfm hok
  obtain ⟨g, rfl⟩ : ∃ g, fuel = g + 1 := by
    cases fuel with
    | zero => simp [add_default_args] at hok
    | succ g => exact ⟨g, rfl⟩
  simp only [add_default_args] at hok
  have hne : stem ++ "_class" ≠ stem := append_class_ne stem
  obtain ⟨A, B, hAB, hselA⟩ := dlookup_split cfg hsel
  have hndparts := by rw [hAB] at hndcfg; exact nodup_dAppend_parts A _ hndcfg
  obtain ⟨hndA, hndSB, hdisj⟩ := hndparts
  have hselB : dcontains (stem ++ "_class") B = false := by
    have := (by simpa [nodupKeysD] using hndSB :
      dcontains (stem ++ "_class") B = false ∧ nodupKeysD B = true)
    exact this.1
  have hndB : nodupKeysD B = true := by
    have := (by simpa [nodupKeysD] using hndSB :
      dcontains (stem ++ "_class") B = false ∧ nodupKeysD B = true)
    exact this.2
  have hstem' : dlookup stem (dAppend A (.cons (stem ++ "_class")
      (.term (selTy, .vStr name)) B)) = some (.dict m) := by
    rw [← hAB]; exact hstem
  rw [hAB] at hok
  rw [adaGo_append] at hok
  cases hA' : adaGo reg (add_default_args reg g)
      (dAppend A (.cons (stem ++ "_class") (.term (selTy, .vStr name)) B)) A .nil with
  | error e => rw [hA'] at hok; exact absurd hok (by simp)
  | ok rA =>
    rw [hA'] at hok
    dsimp only at hok
    rw [adaGo_sel_step reg _ _ stem name selTy fields m B rA hreg hstem'] at hok
    cases hr : add_default_args reg g (dUpdate (fieldsToCD fields) m) with
    | error e => rw [hr] at hok; exact absurd hok (by simp)
    | ok sub₀ =>
      rw [hr] at hok
      dsimp only at hok
      rw [hAB] at hstem
      rw [dlookup_dAppend] at hstem
      cases hstA : dlookup stem A with
      | none =>
        -- the stem entry sits after the selector, in B, and overwrites
        rw [hstA] at hstem
        have hstemB : dlookup stem B = some (.dict m) := by
          simpa [dlookup, hne] using hstem
        obtain ⟨B₁, B₂, hB12, hstB1⟩ := dlookup_split B hstemB
        have hndBparts := by rw [hB12] at hndB; exact nodup_split B₁ B₂ hndB
        obtain ⟨_, hstB2, _⟩ := hndBparts
        have hselB12 : dcontains (stem ++ "_class") B₁ = false ∧
            dcontains (stem ++ "_class") B₂ = false := by
          rw [hB12, dcontains_dAppend] at hselB
          simp only [Bool.or_eq_false_iff] at hselB
          exact ⟨hselB.1, by simpa [dcontains, dlookup, Ne.symm hne] using hselB.2⟩
        rw [hB12, adaGo_append] at hok
        cases hB1' : adaGo reg (add_default_args reg g)
            (dAppend A (.cons (stem ++ "_class") (.term (selTy, .vStr name))
              (dAppend B₁ (.cons stem (.dict m) B₂)))) B₁
            (dinsert (dinsert rA (stem ++ "_class") (.term (selTy, .vStr name))) stem
              (.dict sub₀)) with
        | error e => rw [hB1'] at hok; exact absurd hok (by simp)
        | ok acc₂ =>
          rw [hB1'] at hok
          dsimp only at hok
          simp only [adaGo] at hok
          cases hr2 : add_default_args reg g m with
          | error e => rw [hr2] at hok; exact absurd hok (by simp)
          | ok m₂ =>
            rw [hr2] at hok
            refine ⟨m₂, ?_, ada_preserves_term reg g m m₂ f V hndm hr2 hfm⟩
            rw [adaGo_lookup_inv reg _ _ stem B₂ _ res hok hstB2 (.inr hselB12.2)]
            exact dlookup_dinsert_self acc₂ stem (.dict m₂)
      | some w =>
        -- the stem entry precedes the selector; the selector's merge wins
        rw [hstA] at hstem
        have hstemB' : dcontains stem B = false := by
          have hA : dcontains stem A = true := by simp [dcontains, hstA]
          have := hdisj stem hA
          simpa [dcontains, dlookup, hne] using this
        refine ⟨sub₀, ?_, ?_⟩
        · rw [adaGo_lookup_inv reg _ _ stem B _ res hok hstemB' (.inr hselB)]
          exact dlookup_dinsert_self _ stem (.dict sub₀)
        · exact ada_preserves_term reg g (dUpdate (fieldsToCD fields) m) sub₀ f V
            (dUpdate_nodup m (fieldsToCD fields) hndfields)
            hr (dUpdate_lookup_mem m (fieldsToCD fields) hndm hfm)

/-- Witness for C5: the override clause applied to the concrete level
`{backbone_class: "B", backbone: {y: 5}}` with the registry schema
`B{y: int = 2}` — expansion keeps `y = 5`, never the default `2`. -/
theorem C5_override_precedence_witness :
    ∃ sub, dlookup "backbone" expandedFix = some (.dict sub) ∧
      dlookup "y" sub = some (.term (.tInt, .vInt 5)) :=
  C5_override_precedence regAB 5 expandedFix expandedFix "backbone" "B" .tStr
    [⟨"y", .tInt, .vInt 2⟩] "y" .tInt (.vInt 2)
    (.cons "y" (.term (.tInt, .vInt 5)) .nil) (.tInt, .vInt 5)
    (by decide) (by decide) (by decide) (by decide) (by decide) (by decide)
    (by decide) (by decide) (by decide)

/-! ### Facts about dotted keys -/

/-- `takeWhile` runs past a block of satisfying elements. -/
theorem takeWhile_all_append {p : Char → Bool} :
    ∀ (a b : List Char), (∀ c ∈ a, p c = true) →
      (a ++ b).takeWhile p = a ++ b.takeWhile p
  | [], b, _ => rfl
  | c :: t, b, h => by
    have hc : p c = true := h c (by simp)
    simp only [List.cons_append, List.takeWhile_cons, hc, if_true]
    rw [takeWhile_all_append t b (fun c hc => h c (by simp [hc]))]

/-- `dropWhile` runs past a block of satisfying elements. -/
theorem dropWhile_all_append {p : Char → Bool} :
    ∀ (a b : List Char), (∀ c ∈ a, p c = true) →
      (a ++ b).dropWhile p = b.dropWhile p
  | [], b, _ => rfl
  | c :: t, b, h => by
    have hc : p c = true := h c (by simp)
    simp only [List.cons_append, List.dropWhile_cons, hc]
    exact dropWhile_all_append t b (fun c hc => h c (by simp [hc]))

/-- A dot-free key is its own root. -/
theorem dotRoot_no_dot {k : String} (h : hasDot k = false) : dotRoot k = k := by
  unfold dotRoot
  have hall : ∀ c ∈ k.data, (fun c => decide (c ≠ '.')) c = true := by
    intro c hc
    unfold hasDot at h
    rw [List.any_eq_false] at h
    simpa using h c hc
  have : k.data.takeWhile (fun c => decide (c ≠ '.')) = k.data ++ [].takeWhile (fun c => decide (c ≠ '.')) := by
    rw [← takeWhile_all_append k.data [] hall]
    simp
  simpa using congrArg String.mk this

/-- The data of a dotted join. -/
theorem joinDot_data (k s : String) : (joinDot k s).data = k.data ++ '.' :: s.data := by
  unfold joinDot
  rw [String.data_append, String.data_append, List.append_assoc]
  rfl

/-- A dotted join contains a dot. -/
theorem hasDot_joinDot (k s : String) : hasDot (joinDot k s) = true := by
  unfold hasDot
  rw [joinDot_data]
  simp

/-- The root of a dotted join with a dot-free prefix. -/
theorem dotRoot_joinDot {k : String} (s : String) (h : hasDot k = false) :
    dotRoot (joinDot k s) = k := by
  unfold dotRoot
  rw [joinDot_data]
  have hall : ∀ c ∈ k.data, (fun c => decide (c ≠ '.')) c = true := by
    intro c hc
    unfold hasDot at h
    rw [List.any_eq_false] at h
    simpa using h c hc
  rw [takeWhile_all_append k.data _ hall]
  simp

/-- The rest of a dotted join with a dot-free prefix. -/
theorem dotRest_joinDot {k : String} (s : String) (h : hasDot k = false) :
    dotRest (joinDot k s) = s := by
  unfold dotRest
  rw [joinDot_data]
  have hall : ∀ c ∈ k.data, (fun c => decide (c ≠ '.')) c = true := by
    intro c hc
    unfold hasDot at h
    rw [List.any_eq_false] at h
    simpa using h c hc
  rw [dropWhile_all_append k.data _ hall]
  simp

/-- Dotted joining is injective in the suffix. -/
theorem joinDot_inj {k s s' : String} (h : joinDot k s = joinDot k s') : s = s' := by
  have := congrArg String.data h
  rw [joinDot_data, joinDot_data] at this
  have hd : s.data = s'.data := by
    have := List.append_cancel_left this
    exact List.cons_injective this
  cases s
  cases s'
  exact congrArg String.mk hd

/-! ### More dictionary algebra -/

/-- Appending the empty dictionary. -/
theorem dAppend_nil {α : Type} : ∀ (m : CD α), dAppend m .nil = m
  | .nil => rfl
  | .cons k v t => by simp [dAppend, dAppend_nil t]

/-- Concatenation is associative. -/
theorem dAppend_assoc {α : Type} :
    ∀ (a b c : CD α), dAppend (dAppend a b) c = dAppend a (dAppend b c)
  | .nil, b, c => rfl
  | .cons k v t, b, c => by simp [dAppend, dAppend_assoc t b c]

/-- Assigning a fresh key appends the binding. -/
theorem dinsert_fresh {α : Type} {k : String} :
    ∀ (m : CD α) (v : CV α), dcontains k m = false →
      dinsert m k v = dAppend m (.cons k v .nil)
  | .nil, v, _ => rfl
  | .cons k' v' t, v, h => by
    have hne : k' ≠ k := by
      intro he
      subst he
      simp [dcontains, dlookup] at h
    have ht : dcontains k t = false := by
      simpa [dcontains, dlookup, hne] using h
    simp [dinsert, hne, dAppend, dinsert_fresh t v ht]

/-- Reassigning the value a key already has changes nothing. -/
theorem dinsert_lookup_eq_self {α : Type} {k : String} {v : CV α} :
    ∀ (m : CD α), dlookup k m = some v → dinsert m k v = m
  | .nil, h => by simp [dlookup] at h
  | .cons k' v' t, h => by
    by_cases he : k' = k
    · subst he
      have : v' = v := by simpa [dlookup] using h
      subst this
      simp [dinsert]
    · have ht : dlookup k t = some v := by simpa [dlookup, he] using h
      simp [dinsert, he, dinsert_lookup_eq_self t ht]

/-- The second of two assignments to the same key wins. -/
theorem dinsert_dinsert_same {α : Type} (k : String) :
    ∀ (m : CD α) (v w : CV α), dinsert (dinsert m k v) k w = dinsert m k w
  | .nil, v, w => by simp [dinsert]
  | .cons k' v' t, v, w => by
    by_cases he : k' = k
    · subst he; simp [dinsert]
    · simp [dinsert, he, dinsert_dinsert_same k t v w]

/-- Keys of a prefixed dictionary. -/
theorem dcontains_prefixAll {α : Type} (pre : String) (hpre : hasDot pre = false) :
    ∀ (sub : CD α) (j : String), dcontains j (prefixAll pre sub) = true →
      ∃ s, j = joinDot pre s ∧ dcontains s sub = true
  | .nil, j, h => by simp [prefixAll, dcontains, dlookup] at h
  | .cons sk sv t, j, h => by
    by_cases he : joinDot pre sk = j
    · exact ⟨sk, he.symm, by simp [dcontains, dlookup]⟩
    · have ht : dcontains j (prefixAll pre t) = true := by
        simpa [prefixAll, dcontains, dlookup, he] using h
      obtain ⟨s, hs, hc⟩ := dcontains_prefixAll pre hpre t j ht
      refine ⟨s, hs, ?_⟩
      by_cases hsk : sk = s
      · simp [dcontains, dlookup, hsk]
      · simpa [dcontains, dlookup, hsk] using hc

/-- Lookup under a prefixed dictionary. -/
theorem dcontains_prefixAll_of {α : Type} (pre : String) :
    ∀ (sub : CD α) (s : String), dcontains (joinDot pre s) (prefixAll pre sub) = dcontains s sub
  | .nil, s => by simp [prefixAll, dcontains, dlookup]
  | .cons sk sv t, s => by
    by_cases he : sk = s
    · subst he
      simp [prefixAll, dcontains, dlookup]
    · have hne : joinDot pre sk ≠ joinDot pre s := fun hj => he (joinDot_inj hj)
      simp only [prefixAll, dcontains, dlookup, if_neg hne, if_neg he]
      exact dcontains_prefixAll_of pre t s

/-- Prefixing preserves key distinctness. -/
theorem prefixAll_nodup {α : Type} (pre : String) :
    ∀ (sub : CD α), nodupKeysD sub = true → nodupKeysD (prefixAll pre sub) = true
  | .nil, _ => rfl
  | .cons sk sv t, h => by
    have h' : dcontains sk t = false ∧ nodupKeysD t = true := by
      simpa [nodupKeysD] using h
    have hc : dcontains (joinDot pre sk) (prefixAll pre t) = false := by
      rw [dcontains_prefixAll_of pre t sk]
      exact h'.1
    simp [prefixAll, nodupKeysD, hc, prefixAll_nodup pre t h'.2]

/-- Building key distinctness of a concatenation from its parts. -/
theorem nodup_dAppend_build {α : Type} :
    ∀ (A B : CD α), nodupKeysD A = true → nodupKeysD B = true →
      (∀ x, dcontains x A = true → dcontains x B = false) →
      nodupKeysD (dAppend A B) = true
  | .nil, B, _, hB, _ => by simpa [dAppend] using hB
  | .cons k v t, B, hA, hB, hdisj => by
    have hA' : dcontains k t = false ∧ nodupKeysD t = true := by
      simpa [nodupKeysD] using hA
    have hkB : dcontains k B = false := hdisj k (by simp [dcontains, dlookup])
    have hk : dcontains k (dAppend t B) = false := by
      rw [dcontains_dAppend]
      simp [hA'.1, hkB]
    have ht : nodupKeysD (dAppend t B) = true :=
      nodup_dAppend_build t B hA'.2 hB (fun x hx => by
        by_cases he : k = x
        · subst he
          rw [hA'.1] at hx
          exact absurd hx (by simp)
        · exact hdisj x (by simpa [dcontains, dlookup, he] using hx))
    simp [dAppend, nodupKeysD, hk, ht]

/-- Every key of the flattened form has its root among the level's keys. -/
theorem dtfSpec_roots {α : Type} :
    ∀ (cfg : CD α), wfCD cfg = true →
      ∀ j, dcontains j (dtfSpec cfg) = true → dcontains (dotRoot j) cfg = true
  | .nil, _, j, h => by simp [dtfSpec, dcontains, dlookup] at h
  | .cons k v t, hwf, j, h => by
    have hwf' : hasDot k = false ∧ dcontains k t = false ∧ wfCV v = true ∧ wfCD t = true := by
      simpa [wfCD, and_assoc] using hwf
    cases v with
    | term a =>
      simp only [dtfSpec] at h
      by_cases he : k = j
      · subst he
        simp [dcontains, dlookup, dotRoot_no_dot hwf'.1]
      · have ht := dtfSpec_roots t hwf'.2.2.2 j (by simpa [dcontains, dlookup, he] using h)
        by_cases hr : k = dotRoot j
        · simp [dcontains, dlookup, hr]
        · simpa [dcontains, dlookup, hr] using ht
    | dict m =>
      simp only [dtfSpec] at h
      rw [dcontains_dAppend] at h
      rcases (by simpa using h :
          dcontains j (prefixAll k (dtfSpec m)) = true ∨ dcontains j (dtfSpec t) = true) with hp | hT
      · obtain ⟨s, hs, _⟩ := dcontains_prefixAll k hwf'.1 (dtfSpec m) j hp
        subst hs
        rw [dotRoot_joinDot s hwf'.1]
        simp [dcontains, dlookup]
      · have ht := dtfSpec_roots t hwf'.2.2.2 j hT
        by_cases hr : k = dotRoot j
        · simp [dcontains, dlookup, hr]
        · simpa [dcontains, dlookup, hr] using ht

/-- The flattened form of a well-formed level has distinct keys. -/
theorem dtfSpec_nodup {α : Type} :
    ∀ (cfg : CD α), wfCD cfg = true → nodupKeysD (dtfSpec cfg) = true
  | .nil, _ => rfl
  | .cons k v t, hwf => by
    have hwf' : hasDot k = false ∧ dcontains k t = false ∧ wfCV v = true ∧ wfCD t = true := by
      simpa [wfCD, and_assoc] using hwf
    cases v with
    | term a =>
      have hk : dcontains k (dtfSpec t) = false := by
        by_contra hc
        simp only [Bool.not_eq_false] at hc
        have := dtfSpec_roots t hwf'.2.2.2 k hc
        rw [dotRoot_no_dot hwf'.1] at this
        rw [hwf'.2.1] at this
        exact absurd this (by simp)
      simp [dtfSpec, nodupKeysD, hk, dtfSpec_nodup t hwf'.2.2.2]
    | dict m =>
      have hwfm : wfCD m = true := by
        cases m with
        | nil => simp [wfCV] at hwf'
        | cons k2 v2 t2 => exact (by simpa [wfCV] using hwf'.2.2.1 : wfCD (CD.cons k2 v2 t2) = true)
      simp only [dtfSpec]
      refine nodup_dAppend_build _ _ (prefixAll_nodup k _ (dtfSpec_nodup m hwfm))
        (dtfSpec_nodup t hwf'.2.2.2) ?_
      intro x hx
      obtain ⟨s, hs, _⟩ := dcontains_prefixAll k hwf'.1 (dtfSpec m) x hx
      subst hs
      by_contra hc
      simp only [Bool.not_eq_false] at hc
      have := dtfSpec_roots t hwf'.2.2.2 _ hc
      rw [dotRoot_joinDot s hwf'.1] at this
      rw [hwf'.2.1] at this
      exact absurd this (by simp)

/-- The flattened form of a nonempty well-formed level is nonempty. -/
theorem dtfSpec_nonempty {α : Type} :
    ∀ (cfg : CD α), wfCD cfg = true → cfg ≠ .nil → dtfSpec cfg ≠ .nil
  | .nil, _, hne => absurd rfl hne
  | .cons k v t, hwf, _ => by
    have hwf' : hasDot k = false ∧ dcontains k t = false ∧ wfCV v = true ∧ wfCD t = true := by
      simpa [wfCD, and_assoc] using hwf
    cases v with
    | term a => simp [dtfSpec]
    | dict m =>
      cases m with
      | nil => simp [wfCV] at hwf'
      | cons k2 v2 t2 =>
        have hwfm : wfCD (CD.cons k2 v2 t2) = true := by simpa [wfCV] using hwf'.2.2.1
        have hm := dtfSpec_nonempty (CD.cons k2 v2 t2) hwfm (by simp)
        simp only [dtfSpec]
        cases hd : dtfSpec (CD.cons k2 v2 t2) with
        | nil => exact absurd hd hm
        | cons a b c => simp [prefixAll, dAppend]

/-- Unfolding containment at a cons cell. -/
theorem dcontains_cons_false {α : Type} {x k : String} {v : CV α} {t : CD α}
    (h : dcontains x (.cons k v t) = false) : k ≠ x ∧ dcontains x t = false := by
  by_cases he : k = x
  · subst he
    simp [dcontains, dlookup] at h
  · exact ⟨he, by simpa [dcontains, dlookup, he] using h⟩

/-- Inserting a flattened group under fresh dotted keys appends it. -/
theorem dtfIns_fresh {α : Type} (pre : String) :
    ∀ (sub res : CD α), nodupKeysD sub = true →
      (∀ s, dcontains s sub = true → dcontains (joinDot pre s) res = false) →
      dtfIns res pre sub = dAppend res (prefixAll pre sub)
  | .nil, res, _, _ => by simp [dtfIns, prefixAll, dAppend_nil]
  | .cons sk sv t, res, hnd, hfresh => by
    have hnd' : dcontains sk t = false ∧ nodupKeysD t = true := by
      simpa [nodupKeysD] using hnd
    have hf : dcontains (joinDot pre sk) res = false :=
      hfresh sk (by simp [dcontains, dlookup])
    simp only [dtfIns]
    rw [dinsert_fresh res sv hf]
    rw [dtfIns_fresh pre t _ hnd'.2 ?fresh]
    case fresh =>
      intro s hs
      have hneq : sk ≠ s := by
        intro he
        subst he
        rw [hnd'.1] at hs
        exact absurd hs (by simp)
      rw [dcontains_dAppend]
      have h1 : dcontains (joinDot pre s) res = false :=
        hfresh s (by simpa [dcontains, dlookup, hneq] using hs)
      have h2 : dcontains (joinDot pre s) (.cons (joinDot pre sk) sv .nil) = false := by
        have : joinDot pre sk ≠ joinDot pre s := fun hj => hneq (joinDot_inj hj)
        simp [dcontains, dlookup, this]
      simp [h1, h2]
    rw [dAppend_assoc]
    rfl

/-- On well-formed input, `deep_to_flat`'s traversal computes the
compositional flattening, appended to the accumulator. -/
theorem dtfGo_spec {α : Type} :
    ∀ (cfg res : CD α), wfCD cfg = true →
      (∀ j, dcontains j res = true → dcontains (dotRoot j) cfg = false) →
      dtfGo cfg res = dAppend res (dtfSpec cfg)
  | .nil, res, _, _ => by simp [dtfGo, dtfSpec, dAppend_nil]
  | .cons k v t, res, hwf, hfresh => by
    have hwf' : hasDot k = false ∧ dcontains k t = false ∧ wfCV v = true ∧ wfCD t = true := by
      simpa [wfCD, and_assoc] using hwf
    have hkres : dcontains k res = false := by
      by_contra hc
      simp only [Bool.not_eq_false] at hc
      have := hfresh k hc
      rw [dotRoot_no_dot hwf'.1] at this
      simp [dcontains, dlookup] at this
    cases v with
    | term a =>
      simp only [dtfGo]
      rw [dinsert_fresh res _ hkres]
      rw [dtfGo_spec t _ hwf'.2.2.2 ?fresh]
      case fresh =>
        intro j hj
        rw [dcontains_dAppend] at hj
        rcases (by simpa using hj :
            dcontains j res = true ∨ dcontains j (.cons k (CV.term a) .nil) = true) with h1 | h2
        · exact (dcontains_cons_false (hfresh j h1)).2
        · have : k = j := by
            by_cases he : k = j
            · exact he
            · simp [dcontains, dlookup, he] at h2
          subst this
          rw [dotRoot_no_dot hwf'.1]
          exact hwf'.2.1
      rw [dAppend_assoc]
      rfl
    | dict m =>
      have hwfm : wfCD m = true := by
        cases m with
        | nil => simp [wfCV] at hwf'
        | cons k2 v2 t2 => exact (by simpa [wfCV] using hwf'.2.2.1 : wfCD (CD.cons k2 v2 t2) = true)
      simp only [dtfGo]
      rw [show dtfGo m .nil = dtfSpec m from by
        rw [dtfGo_spec m .nil hwfm (fun j hj => by simp [dcontains, dlookup] at hj)]
        rfl]
      rw [dtfIns_fresh k (dtfSpec m) res (dtfSpec_nodup m hwfm) ?freshIns]
      case freshIns =>
        intro s hs
        by_contra hc
        simp only [Bool.not_eq_false] at hc
        have := hfresh _ hc
        rw [dotRoot_joinDot s hwf'.1] at this
        simp [dcontains, dlookup] at this
      rw [dtfGo_spec t _ hwf'.2.2.2 ?fresh]
      case fresh =>
        intro j hj
        rw [dcontains_dAppend] at hj
        rcases (by simpa using hj :
            dcontains j res = true ∨ dcontains j (prefixAll k (dtfSpec m)) = true) with h1 | h2
        · exact (dcontains_cons_false (hfresh j h1)).2
        · obtain ⟨s, hs, _⟩ := dcontains_prefixAll k hwf'.1 (dtfSpec m) j h2
          subst hs
          rw [dotRoot_joinDot s hwf'.1]
          exact hwf'.2.1
      rw [dAppend_assoc]
      rfl

/-- `deep_to_flat` on a well-formed configuration is the compositional
flattening. -/
theorem deep_to_flat_spec {α : Type} (cfg : CD α) (hwf : wfCD cfg = true) :
    deep_to_flat cfg = dtfSpec cfg := by
  unfold deep_to_flat
  rw [dtfGo_spec cfg .nil hwf (fun j hj => by simp [dcontains, dlookup] at hj)]
  rfl

/-- Absence as a `none` lookup. -/
theorem dcontains_false_lookup {α : Type} {x : String} {m : CD α}
    (h : dcontains x m = false) : dlookup x m = none := by
  unfold dcontains at h
  cases hl : dlookup x m with
  | none => rfl
  | some w => rw [hl] at h; simp at h

/-- The first pass of `flat_to_deep` accumulates a contiguous group of
dotted keys sharing the dot-free root `k` into the dictionary bound at `k`. -/
theorem ftdPhase1_group {α : Type} (k : String) (hk : hasDot k = false) :
    ∀ (sub cur rest res : CD α),
      dlookup k res = some (.dict cur) →
      nodupKeysD sub = true →
      (∀ s, dcontains s sub = true → dcontains s cur = false) →
      ftdPhase1 (dAppend (prefixAll k sub) rest) res =
        ftdPhase1 rest (dinsert res k (.dict (dAppend cur sub)))
  | .nil, cur, rest, res, hcur, _, _ => by
    simp only [prefixAll, dAppend, dAppend_nil]
    rw [dinsert_lookup_eq_self res hcur]
  | .cons sk sv subt, cur, rest, res, hcur, hnd, hdisj => by
    have hnd' : dcontains sk subt = false ∧ nodupKeysD subt = true := by
      simpa [nodupKeysD] using hnd
    have hskcur : dcontains sk cur = false := hdisj sk (by simp [dcontains, dlookup])
    simp only [prefixAll, dAppend, ftdPhase1]
    rw [hasDot_joinDot k sk]
    simp only [if_true]
    rw [dotRoot_joinDot sk hk, dotRest_joinDot sk hk, hcur]
    dsimp only
    rw [ftdPhase1_group k hk subt (dinsert cur sk sv) rest
      (dinsert res k (.dict (dinsert cur sk sv)))
      (dlookup_dinsert_self res k _) hnd'.2 ?disj]
    case disj =>
      intro s hs
      have hneq : sk ≠ s := by
        intro he
        subst he
        rw [hnd'.1] at hs
        exact absurd hs (by simp)
      rw [dinsert_fresh cur sv hskcur, dcontains_dAppend]
      have h2 : dcontains s (.cons sk sv .nil) = false := by
        simp [dcontains, dlookup, hneq]
      simp [hdisj s (by simpa [dcontains, dlookup, hneq] using hs), h2]
    rw [dinsert_dinsert_same]
    rw [dinsert_fresh cur sv hskcur, dAppend_assoc]
    rfl

/-- The first pass of `flat_to_deep` on a flattened well-formed
configuration groups it back one level. -/
theorem ftdPhase1_spec {α : Type} :
    ∀ (cfg res : CD α), wfCD cfg = true →
      (∀ x, dcontains x cfg = true → dcontains x res = false) →
      ftdPhase1 (dtfSpec cfg) res = .ok (dAppend res (phase1Spec cfg))
  | .nil, res, _, _ => by simp [dtfSpec, ftdPhase1, phase1Spec, dAppend_nil]
  | .cons k v t, res, hwf, hfresh => by
    have hwf' : hasDot k = false ∧ dcontains k t = false ∧ wfCV v = true ∧ wfCD t = true := by
      simpa [wfCD, and_assoc] using hwf
    have hkres : dcontains k res = false := hfresh k (by simp [dcontains, dlookup])
    have hfresh' : ∀ (w : CV α) x, dcontains x t = true →
        dcontains x (dAppend res (.cons k w .nil)) = false := by
      intro w x hx
      have hxk : x ≠ k := by
        intro he
        subst he
        rw [hwf'.2.1] at hx
        exact absurd hx (by simp)
      rw [dcontains_dAppend]
      have h1 : dcontains x res = false :=
        hfresh x (by simpa [dcontains, dlookup, Ne.symm hxk] using hx)
      simp [dcontains, dlookup, Ne.symm hxk, dcontains_false_lookup h1]
    cases v with
    | term a =>
      simp only [dtfSpec, ftdPhase1]
      rw [hwf'.1]
      simp only [Bool.false_eq_true, if_false]
      rw [dinsert_fresh res _ hkres]
      rw [ftdPhase1_spec t _ hwf'.2.2.2 (hfresh' (.term a))]
      rw [dAppend_assoc]
      rfl
    | dict m =>
      have hwfm : wfCD m = true := by
        cases m with
        | nil => simp [wfCV] at hwf'
        | cons k2 v2 t2 => exact (by simpa [wfCV] using hwf'.2.2.1 : wfCD (CD.cons k2 v2 t2) = true)
      have hmne : m ≠ CD.nil := by
        cases m with
        | nil => simp [wfCV] at hwf'
        | cons k2 v2 t2 => simp
      have hnodm := dtfSpec_nodup m hwfm
      cases hm : dtfSpec m with
      | nil => exact absurd hm (dtfSpec_nonempty m hwfm hmne)
      | cons s₀ v₀ sub =>
        rw [hm] at hnodm
        have hnodm' : dcontains s₀ sub = false ∧ nodupKeysD sub = true := by
          simpa [nodupKeysD] using hnodm
        simp only [dtfSpec, hm, prefixAll, dAppend, ftdPhase1]
        rw [hasDot_joinDot k s₀]
        simp only [if_true]
        rw [dotRoot_joinDot s₀ hwf'.1, dotRest_joinDot s₀ hwf'.1]
        rw [show dlookup k res = none from by
          have := hkres
          unfold dcontains at this
          cases h : dlookup k res with
          | none => rfl
          | some w => rw [h] at this; simp at this]
        rw [ftdPhase1_group k hwf'.1 sub (.cons s₀ v₀ .nil) (dtfSpec t)
          (dinsert res k (.dict (.cons s₀ v₀ .nil)))
          (dlookup_dinsert_self res k _) hnodm'.2 ?disj]
        case disj =>
          intro s hs
          have hneq : s₀ ≠ s := by
            intro he
            subst he
            rw [hnodm'.1] at hs
            exact absurd hs (by simp)
          simp [dcontains, dlookup, hneq]
        rw [dinsert_dinsert_same]
        have hgrp : dAppend (.cons s₀ v₀ .nil) sub = CD.cons s₀ v₀ sub := by
          simp [dAppend]
        rw [hgrp, ← hm]
        rw [dinsert_fresh res _ hkres]
        rw [ftdPhase1_spec t _ hwf'.2.2.2 (hfresh' (.dict (dtfSpec m)))]
        rw [dAppend_assoc]
        rfl

/-- Heights are positive. -/
theorem hCV_pos {α : Type} (v : CV α) : 1 ≤ hCV v := by
  cases v <;> simp [hCV]

/-- Heights are positive. -/
theorem hCD_pos {α : Type} (m : CD α) : 1 ≤ hCD m := by
  cases m with
  | nil => simp [hCD]
  | cons k v t => exact le_trans (hCV_pos v) (by simp [hCD])

/-- The second pass of `flat_to_deep` undoes the one-level grouping, given
that the recursive call undoes the flattening of each nested dictionary. -/
theorem ftdMap_spec {α : Type} (rec : CD α → Except PErr (CD α)) :
    ∀ (cfg : CD α), wfCD cfg = true →
      (∀ (m : CD α), wfCD m = true → m ≠ .nil → hCV (CV.dict m) ≤ hCD cfg →
        rec (dtfSpec m) = .ok m) →
      ftdMap rec (phase1Spec cfg) = .ok cfg
  | .nil, _, _ => by simp [phase1Spec, ftdMap]
  | .cons k v t, hwf, hrec => by
    have hwf' : hasDot k = false ∧ dcontains k t = false ∧ wfCV v = true ∧ wfCD t = true := by
      simpa [wfCD, and_assoc] using hwf
    have hrect : ∀ (m : CD α), wfCD m = true → m ≠ .nil → hCV (CV.dict m) ≤ hCD t →
        rec (dtfSpec m) = .ok m := by
      intro m h1 h2 h3
      exact hrec m h1 h2 (le_trans h3 (by simp [hCD]))
    cases v with
    | term a =>
      simp only [phase1Spec, ftdMap]
      rw [ftdMap_spec rec t hwf'.2.2.2 hrect]
      rfl
    | dict m =>
      have hwfm : wfCD m = true := by
        cases m with
        | nil => simp [wfCV] at hwf'
        | cons k2 v2 t2 => exact (by simpa [wfCV] using hwf'.2.2.1 : wfCD (CD.cons k2 v2 t2) = true)
      have hmne : m ≠ CD.nil := by
        cases m with
        | nil => simp [wfCV] at hwf'
        | cons k2 v2 t2 => simp
      simp only [phase1Spec, ftdMap]
      rw [hrec m hwfm hmne (by simp [hCD])]
      rw [ftdMap_spec rec t hwf'.2.2.2 hrect]
      rfl

/-- With fuel at least the nesting height, `flat_to_deep` undoes the
compositional flattening of a well-formed configuration. -/
theorem ftd_roundtrip {α : Type} :
    ∀ (fuel : Nat) (cfg : CD α), wfCD cfg = true → hCD cfg ≤ fuel →
      ftdFuel fuel (dtfSpec cfg) = .ok cfg := by
  intro fuel
  induction fuel with
  | zero => intro cfg _ hle; exact absurd (le_trans (hCD_pos cfg) hle) (by simp)
  | succ f ih =>
    intro cfg hwf hle
    simp only [ftdFuel]
    rw [ftdPhase1_spec cfg .nil hwf (fun x _ => by simp [dcontains, dlookup])]
    show ftdMap (ftdFuel f) (dAppend .nil (phase1Spec cfg)) = .ok cfg
    rw [show dAppend CD.nil (phase1Spec cfg) = phase1Spec cfg from rfl]
    refine ftdMap_spec (ftdFuel f) cfg hwf ?_
    intro m h1 _ h3
    refine ih m h1 ?_
    simp only [hCV] at h3
    omega

/-- The measure of a concatenation. -/
theorem measCD_dAppend {α : Type} :
    ∀ (A B : CD α), measCD (dAppend A B) = measCD A + measCD B
  | .nil, B => by simp [dAppend, measCD]
  | .cons k v t, B => by
    simp [dAppend, measCD, measCD_dAppend t B]
    omega

/-- The length of a dotted join. -/
theorem joinDot_length (k s : String) : (joinDot k s).length = k.length + 1 + s.length := by
  have h2 := congrArg List.length (joinDot_data k s)
  simp only [List.length_append, List.length_cons] at h2
  show (joinDot k s).data.length = k.data.length + 1 + s.data.length
  omega

/-- Prefixing only grows the measure. -/
theorem measCD_prefixAll_ge {α : Type} (pre : String) :
    ∀ (sub : CD α), measCD sub ≤ measCD (prefixAll pre sub)
  | .nil => le_rfl
  | .cons sk sv t => by
    simp only [prefixAll, measCD]
    have hlen := joinDot_length pre sk
    have := measCD_prefixAll_ge pre t
    omega

/-- The nesting height is bounded by the measure of the flattened form. -/
theorem hCD_le_meas {α : Type} :
    ∀ (cfg : CD α), wfCD cfg = true → hCD cfg ≤ measCD (dtfSpec cfg) + 1
  | .nil, _ => by simp [hCD, dtfSpec, measCD]
  | .cons k v t, hwf => by
    have hwf' : hasDot k = false ∧ dcontains k t = false ∧ wfCV v = true ∧ wfCD t = true := by
      simpa [wfCD, and_assoc] using hwf
    have ht := hCD_le_meas t hwf'.2.2.2
    cases v with
    | term a =>
      simp only [hCD, hCV, dtfSpec, measCD]
      have : hCD t ≤ k.length + 1 + 1 + measCD (dtfSpec t) + 1 := by omega
      simp only [max_le_iff]
      omega
    | dict m =>
      have hwfm : wfCD m = true := by
        cases m with
        | nil => simp [wfCV] at hwf'
        | cons k2 v2 t2 => exact (by simpa [wfCV] using hwf'.2.2.1 : wfCD (CD.cons k2 v2 t2) = true)
      have hmne : m ≠ CD.nil := by
        cases m with
        | nil => simp [wfCV] at hwf'
        | cons k2 v2 t2 => simp
      have hm := hCD_le_meas m hwfm
      have hne := dtfSpec_nonempty m hwfm hmne
      have hposP : measCD (dtfSpec m) + 1 ≤ measCD (prefixAll k (dtfSpec m)) := by
        cases hd : dtfSpec m with
        | nil => exact absurd hd hne
        | cons s₀ v₀ sub =>
          simp only [prefixAll, measCD]
          have hlen := joinDot_length k s₀
          have := measCD_prefixAll_ge k sub
          omega
      simp only [hCD, hCV, dtfSpec, measCD_dAppend]
      simp only [max_le_iff]
      constructor
      · omega
      · omega

/-- C2 (counterexample to the claim as stated): the nested configuration
`{"a": {}}` has no key containing the path separator, yet flattening erases
the empty nested mapping, so the round trip returns `{}`, not `{"a": {}}`. -/
theorem C2_counterexample :
    deep_to_flat (.cons "a" (.dict .nil) .nil : CD Val) = .nil ∧
    flat_to_deep (deep_to_flat (.cons "a" (.dict .nil) .nil : CD Val)) = .ok .nil ∧
    (CD.nil : CD Val) ≠ .cons "a" (.dict .nil) .nil := by
  decide

/-- C2 (amended): for every nested configuration in which no key contains
the path separator, keys are distinct at each level, and — the condition the
counterexample forces — every nested mapping is nonempty, the flattening
round trip is the identity: `flat_to_deep (deep_to_flat cfg) = cfg`. -/
theorem C2_round_trip {α : Type} (cfg : CD α) (hwf : wfCD cfg = true) :
    flat_to_deep (deep_to_flat cfg) = .ok cfg := by
  rw [deep_to_flat_spec cfg hwf]
  unfold flat_to_deep
  exact ftd_roundtrip _ cfg hwf (le_trans (hCD_le_meas cfg hwf) (by omega))

/-- Witness for C2: the round trip on the concrete well-formed configuration
`{"a": {"b": 1, "c": 2}, "d": 3}`. -/
theorem C2_round_trip_witness :
    flat_to_deep (deep_to_flat (.cons "a" (.dict (.cons "b" (.term (.vInt 1))
        (.cons "c" (.term (.vInt 2)) .nil)))
      (.cons "d" (.term (.vInt 3)) .nil) : CD Val)) =
      .ok (.cons "a" (.dict (.cons "b" (.term (.vInt 1))
        (.cons "c" (.term (.vInt 2)) .nil)))
      (.cons "d" (.term (.vInt 3)) .nil)) :=
  C2_round_trip _ (by decide)

/-! ### The equivalence relation of Python dictionary equality -/

/-- A value reached by lookup is smaller than its dictionary. -/
theorem dlookup_sizeOf {k : String} :
    ∀ (m : CD (Ty × Val)) (v : CV (Ty × Val)), dlookup k m = some v → sizeOf v < sizeOf m
  | .nil, v, h => by simp [dlookup] at h
  | .cons k' v' t, v, h => by
    by_cases he : k' = k
    · subst he
      have : v' = v := by simpa [dlookup] using h
      subst this
      simp
      omega
    · have ht : dlookup k t = some v := by simpa [dlookup, he] using h
      have := dlookup_sizeOf t v ht
      simp
      omega

/-- Reflexivity of dictionary equality (size-bounded auxiliary). -/
theorem eqva_refl_aux : ∀ (n : Nat) (v : CV (Ty × Val)), sizeOf v ≤ n → EqvA v v := by
  intro n
  induction n with
  | zero =>
    intro v h
    cases v with
    | term a => exact .term a
    | dict m => simp at h
  | succ n ih =>
    intro v h
    cases v with
    | term a => exact .term a
    | dict m =>
      refine .dict m m (fun k => rfl) ?_
      intro k w w' h1 h2
      rw [h1] at h2
      obtain rfl : w = w' := by simpa using h2
      refine ih w ?_
      have hlt := dlookup_sizeOf m w h1
      have : sizeOf (CV.dict m) = 1 + sizeOf m := by simp
      omega

/-- Reflexivity of dictionary equality. -/
theorem EqvA_refl (v : CV (Ty × Val)) : EqvA v v := eqva_refl_aux (sizeOf v) v le_rfl

/-- Symmetry of dictionary equality. -/
theorem EqvA_symm {a b : CV (Ty × Val)} (h : EqvA a b) : EqvA b a := by
  induction h with
  | term a => exact .term a
  | dict m m' hc _ ih =>
    exact .dict m' m (fun k => (hc k).symm) (fun k v v' h1 h2 => ih k v' v h2 h1)

/-- Transitivity of dictionary equality. -/
theorem EqvA_trans {a b : CV (Ty × Val)} (h : EqvA a b) :
    ∀ {c : CV (Ty × Val)}, EqvA b c → EqvA a c := by
  induction h with
  | term a => intro c h2; exact h2
  | dict m m' hc hp ih =>
    intro c h2
    cases h2 with
    | dict _ m'' hc2 hp2 =>
      refine .dict m m'' (fun k => (hc k).trans (hc2 k)) ?_
      intro k v v'' h1 h3
      have hmid : (dlookup k m').isSome = true := by
        have := (hc k).symm
        unfold dcontains at this
        rw [h1] at this
        simpa using this.symm
      obtain ⟨v', hv'⟩ := Option.isSome_iff_exists.mp hmid
      exact ih k v v' h1 hv' (hp2 k v' v'' hv' h3)

/-- Equivalent dictionaries contain the same keys. -/
theorem EqvD_contains {m m' : CD (Ty × Val)} (h : EqvD m m') (k : String) :
    dcontains k m = dcontains k m' := by
  cases h with
  | dict _ _ hc _ => exact hc k

/-- Transfer a lookup along an equivalence. -/
theorem EqvD_lookup {m x : CD (Ty × Val)} (h : EqvD m x) {k : String} {v : CV (Ty × Val)}
    (hl : dlookup k m = some v) :
    ∃ vx, dlookup k x = some vx ∧ EqvA v vx := by
  cases h with
  | dict _ _ hc hp =>
    have : dcontains k x = true := by
      rw [← hc k]
      simp [dcontains, hl]
    obtain ⟨vx, hvx⟩ := Option.isSome_iff_exists.mp this
    exact ⟨vx, hvx, hp k v vx hl hvx⟩

/-- A value equivalent to a terminal is that terminal. -/
theorem EqvA_term_inv {tv : Ty × Val} {vx : CV (Ty × Val)}
    (h : EqvA (.term tv) vx) : vx = .term tv := by
  cases h
  rfl

/-- A value equivalent to a dictionary is an equivalent dictionary. -/
theorem EqvA_dict_inv {m : CD (Ty × Val)} {vx : CV (Ty × Val)}
    (h : EqvA (.dict m) vx) : ∃ mx, vx = .dict mx ∧ EqvD m mx := by
  cases h with
  | dict _ mx hc hp => exact ⟨mx, rfl, .dict m mx hc hp⟩

/-! ### Deep key-distinctness bookkeeping -/

/-- Values of a deeply duplicate-free dictionary are deeply duplicate-free. -/
theorem nodupDeep_lookup {k : String} :
    ∀ (x : CD (Ty × Val)) (v : CV (Ty × Val)),
      nodupDeepCD x = true → dlookup k x = some v → nodupDeepCV v = true
  | .nil, v, _, h => by simp [dlookup] at h
  | .cons k' v' t, v, hnd, h => by
    have hnd' : dcontains k' t = false ∧ nodupDeepCV v' = true ∧ nodupDeepCD t = true := by
      simpa [nodupDeepCD, and_assoc] using hnd
    by_cases he : k' = k
    · subst he
      obtain rfl : v' = v := by simpa [dlookup] using h
      exact hnd'.2.1
    · exact nodupDeep_lookup t v hnd'.2.2 (by simpa [dlookup, he] using h)

/-- Deep distinctness gives top-level distinctness. -/
theorem nodupDeep_keys :
    ∀ (x : CD (Ty × Val)), nodupDeepCD x = true → nodupKeysD x = true
  | .nil, _ => rfl
  | .cons k v t, hnd => by
    have hnd' : dcontains k t = false ∧ nodupDeepCV v = true ∧ nodupDeepCD t = true := by
      simpa [nodupDeepCD, and_assoc] using hnd
    simp [nodupKeysD, hnd'.1, nodupDeep_keys t hnd'.2.2]

/-- Containment after an assignment. -/
theorem dcontains_dinsert {α : Type} {j k : String} (v : CV α) :
    ∀ (m : CD α), dcontains j (dinsert m k v) = (dcontains j m || decide (j = k))
  | .nil => by
    by_cases he : j = k
    · simp [dinsert, dcontains, dlookup, he]
    · simp [dinsert, dcontains, dlookup, he, Ne.symm he]
  | .cons k' v' t => by
    by_cases he : k' = k
    · subst he
      by_cases hej : k' = j
      · subst hej
        simp [dinsert, dcontains, dlookup]
      · simp [dinsert, dcontains, dlookup, hej, Ne.symm hej]
    · by_cases hej : k' = j
      · subst hej
        simp [dinsert, he, dcontains, dlookup]
      · simp only [dinsert, if_neg he]
        simp only [dcontains, dlookup, if_neg hej]
        exact dcontains_dinsert v t

/-- Assignment preserves deep distinctness. -/
theorem dinsert_nodupDeep {k : String} {v : CV (Ty × Val)} (hv : nodupDeepCV v = true) :
    ∀ (m : CD (Ty × Val)), nodupDeepCD m = true → nodupDeepCD (dinsert m k v) = true
  | .nil, _ => by simp [dinsert, nodupDeepCD, dcontains, dlookup, hv]
  | .cons k' v' t, hnd => by
    have hnd' : dcontains k' t = false ∧ nodupDeepCV v' = true ∧ nodupDeepCD t = true := by
      simpa [nodupDeepCD, and_assoc] using hnd
    by_cases he : k' = k
    · subst he
      simp [dinsert, nodupDeepCD, hnd'.1, hv, hnd'.2.2]
    · have hc : dcontains k' (dinsert t k v) = false := by
        rw [dcontains_dinsert]
        simp [hnd'.1, he]
      simp [dinsert, he, nodupDeepCD, hc, hnd'.2.1, dinsert_nodupDeep hv t hnd'.2.2]

/-- Containment after an update. -/
theorem dUpdate_contains {α : Type} {j : String} :
    ∀ (b a : CD α), dcontains j (dUpdate a b) = (dcontains j a || dcontains j b)
  | .nil, a => by simp [dUpdate, dcontains, dlookup]
  | .cons k v t, a => by
    simp only [dUpdate]
    rw [dUpdate_contains t (dinsert a k v)]
    rw [dcontains_dinsert]
    by_cases he : j = k
    · subst he
      simp [dcontains, dlookup]
    · simp [dcontains, dlookup, he, Ne.symm he, Bool.or_assoc]

/-- Update preserves deep distinctness. -/
theorem dUpdate_nodupDeep :
    ∀ (b a : CD (Ty × Val)), nodupDeepCD a = true → nodupDeepCD b = true →
      nodupDeepCD (dUpdate a b) = true
  | .nil, a, ha, _ => by simpa [dUpdate] using ha
  | .cons k v t, a, ha, hb => by
    have hb' : dcontains k t = false ∧ nodupDeepCV v = true ∧ nodupDeepCD t = true := by
      simpa [nodupDeepCD, and_assoc] using hb
    simp only [dUpdate]
    exact dUpdate_nodupDeep t (dinsert a k v) (dinsert_nodupDeep hb'.2.1 a ha) hb'.2.2

/-- Schema-default dictionaries are deeply distinct once their keys are. -/
theorem fieldsToCD_nodupDeep :
    ∀ (fields : Schema), nodupKeysD (fieldsToCD fields) = true →
      nodupDeepCD (fieldsToCD fields) = true
  | [], _ => rfl
  | f :: fs, h => by
    have h' : dcontains f.name (fieldsToCD fs) = false ∧ nodupKeysD (fieldsToCD fs) = true := by
      simpa [fieldsToCD, nodupKeysD] using h
    simp [fieldsToCD, nodupDeepCD, h'.1, nodupDeepCV, fieldsToCD_nodupDeep fs h'.2]

/-- A key of the schema-default dictionary names a field. -/
theorem fieldsToCD_contains_mem {j : String} :
    ∀ (fields : Schema), dcontains j (fieldsToCD fields) = true →
      ∃ f ∈ fields, f.name = j
  | [], h => by simp [fieldsToCD, dcontains, dlookup] at h
  | f :: fs, h => by
    by_cases he : f.name = j
    · exact ⟨f, by simp, he⟩
    · obtain ⟨g, hg, hgn⟩ := fieldsToCD_contains_mem fs
        (by simpa [fieldsToCD, dcontains, dlookup, he] using h)
      exact ⟨g, by simp [hg], hgn⟩

/-- A key present in `b` (with distinct keys) looks up to `b`'s value after
an update. -/
theorem dlookup_dUpdate_mem_eq {α : Type} {j : String} (a b : CD α)
    (hnd : nodupKeysD b = true) (hc : dcontains j b = true) :
    dlookup j (dUpdate a b) = dlookup j b := by
  cases hl : dlookup j b with
  | none => unfold dcontains at hc; rw [hl] at hc; simp at hc
  | some w => exact dUpdate_lookup_mem b a hnd hl

/-- One level of schema expansion preserves deep key-distinctness, provided
the recursive call returns deeply duplicate-free dictionaries. -/
theorem adaGo_nodupDeep (reg : Registry)
    (rec : CD (Ty × Val) → Except PErr (CD (Ty × Val)))
    (hrec : ∀ m y, rec m = .ok y → nodupDeepCD y = true) (full : CD (Ty × Val)) :
    ∀ (items res out : CD (Ty × Val)), nodupDeepCD res = true →
      adaGo reg rec full items res = .ok out → nodupDeepCD out = true
  | .nil, res, out, hres, hok => by
    obtain rfl : res = out := by simpa [adaGo] using hok
    exact hres
  | .cons k v t, res, out, hres, hok => by
    cases v with
    | dict m =>
      simp only [adaGo] at hok
      cases hr : rec m with
      | error e => rw [hr] at hok; exact absurd hok (by simp)
      | ok m' =>
        rw [hr] at hok
        exact adaGo_nodupDeep reg rec hrec full t _ out
          (dinsert_nodupDeep (by simpa [nodupDeepCV] using hrec m m' hr) res hres) hok
    | term tv =>
      simp only [adaGo] at hok
      by_cases hend : endsWithClass k = true
      · rw [hend] at hok
        simp only [if_true] at hok
        by_cases hmiss : tv.2 = Val.vMissing
        · rw [if_pos hmiss] at hok
          exact adaGo_nodupDeep reg rec hrec full t _ out
            (dinsert_nodupDeep (by simp [nodupDeepCV]) res hres) hok
        · rw [if_neg hmiss] at hok
          cases htv : tv.2 with
          | vStr name =>
            rw [htv] at hok
            dsimp only at hok
            cases hreg : reg name with
            | none => rw [hreg] at hok; exact absurd hok (by simp)
            | some fields =>
              rw [hreg] at hok
              dsimp only at hok
              cases hst : dlookup (stripClass k) full with
              | none =>
                rw [hst] at hok
                dsimp only at hok
                cases hr : rec (fieldsToCD fields) with
                | error e => rw [hr] at hok; exact absurd hok (by simp)
                | ok sub =>
                  rw [hr] at hok
                  exact adaGo_nodupDeep reg rec hrec full t _ out
                    (dinsert_nodupDeep (by simpa [nodupDeepCV] using hrec _ sub hr) _
                      (dinsert_nodupDeep (by simp [nodupDeepCV]) res hres)) hok
              | some w =>
                cases w with
                | dict m2 =>
                  rw [hst] at hok
                  dsimp only at hok
                  cases hr : rec (dUpdate (fieldsToCD fields) m2) with
                  | error e => rw [hr] at hok; exact absurd hok (by simp)
                  | ok sub =>
                    rw [hr] at hok
                    exact adaGo_nodupDeep reg rec hrec full t _ out
                      (dinsert_nodupDeep (by simpa [nodupDeepCV] using hrec _ sub hr) _
                        (dinsert_nodupDeep (by simp [nodupDeepCV]) res hres)) hok
                | term a =>
                  rw [hst] at hok
                  exact absurd hok (by simp)
          | vMissing => exact absurd htv hmiss
          | vNone => rw [htv] at hok; exact absurd hok (by simp)
          | vBool b => rw [htv] at hok; exact absurd hok (by simp)
          | vInt n => rw [htv] at hok; exact absurd hok (by simp)
          | vTuple xs => rw [htv] at hok; exact absurd hok (by simp)
          | vList xs => rw [htv] at hok; exact absurd hok (by simp)
      · simp only [Bool.not_eq_true] at hend
        rw [hend] at hok
        simp only [Bool.false_eq_true, if_false] at hok
        exact adaGo_nodupDeep reg rec hrec full t _ out
          (dinsert_nodupDeep (by simp [nodupDeepCV]) res hres) hok

/-- Successful schema expansion returns a deeply duplicate-free dictionary. -/
theorem ada_nodupDeep (reg : Registry) :
    ∀ (fuel : Nat) (cfg y : CD (Ty × Val)),
      add_default_args reg fuel cfg = .ok y → nodupDeepCD y = true
  | 0, cfg, y, h => by simp [add_default_args] at h
  | fuel + 1, cfg, y, h => by
    simp only [add_default_args] at h
    exact adaGo_nodupDeep reg _ (fun m z => ada_nodupDeep reg fuel m z) cfg cfg .nil y rfl h

/-- What the expansion predicate guarantees about each entry of a traversed
level `items` against the reference level `x`: nested dictionaries are
expanded, and each selector names a registered schema with duplicate-free
defaults whose stem is a dictionary of `x` covering all field names. -/
theorem expGo_lookup (reg : Registry) (x : CD (Ty × Val)) :
    ∀ (items : CD (Ty × Val)), expGo reg x items = true →
      ∀ (k : String) (v : CV (Ty × Val)), dlookup k items = some v →
        (∀ m, v = .dict m → expanded reg m = true) ∧
        (∀ tv, v = .term tv → endsWithClass k = true →
          ∃ name fields, tv.2 = .vStr name ∧ reg name = some fields ∧
            nodupKeysD (fieldsToCD fields) = true ∧
            ∃ ms, dlookup (stripClass k) x = some (.dict ms) ∧
              fieldsCovered fields ms = true)
  | .nil, _, k, v, hl => by simp [dlookup] at hl
  | .cons k' v' t, hexp, k, v, hl => by
    by_cases he : k' = k
    · subst he
      obtain rfl : v' = v := by simpa [dlookup] using hl
      cases v' with
      | dict m =>
        have hm : expGo reg m m = true ∧ expGo reg x t = true := by
          simpa [expGo] using hexp
        refine ⟨?_, ?_⟩
        · intro m' hm'
          injection hm' with h
          subst h
          exact hm.1
        · intro tv htv _
          exact absurd htv (by intro hc; exact CV.noConfusion hc)
      | term tv =>
        refine ⟨?_, ?_⟩
        · intro m hm
          exact absurd hm (by intro hc; exact CV.noConfusion hc)
        · intro tv' htv' hew
          injection htv' with h
          subst h
          rw [expGo, hew] at hexp
          simp only [if_true] at hexp
          cases htv : tv.2 with
          | vStr name =>
            rw [htv] at hexp
            dsimp only at hexp
            cases hreg : reg name with
            | none => rw [hreg] at hexp; exact absurd hexp (by simp)
            | some fields =>
              rw [hreg] at hexp
              dsimp only at hexp
              cases hst : dlookup (stripClass k') x with
              | none => rw [hst] at hexp; simp at hexp
              | some w =>
                cases w with
                | dict ms =>
                  rw [hst] at hexp
                  dsimp only at hexp
                  have hx := by simpa [and_assoc] using hexp
                  exact ⟨name, fields, rfl, hreg, hx.1, ms, rfl, hx.2.1⟩
                | term a => rw [hst] at hexp; simp at hexp
          | vMissing => rw [htv] at hexp; simp at hexp
          | vNone => rw [htv] at hexp; simp at hexp
          | vBool b => rw [htv] at hexp; simp at hexp
          | vInt n => rw [htv] at hexp; simp at hexp
          | vTuple xs => rw [htv] at hexp; simp at hexp
          | vList xs => rw [htv] at hexp; simp at hexp
    · have hl' : dlookup k t = some v := by simpa [dlookup, he] using hl
      have hexp' : expGo reg x t = true := by
        cases v' with
        | dict m => exact (by simpa [expGo] using hexp : _ ∧ _).2
        | term tv =>
          by_cases hew : endsWithClass k' = true
          · rw [expGo, hew] at hexp
            simp only [if_true] at hexp
            cases htv : tv.2 with
            | vStr name =>
              rw [htv] at hexp
              dsimp only at hexp
              cases hreg : reg name with
              | none => rw [hreg] at hexp; exact absurd hexp (by simp)
              | some fields =>
                rw [hreg] at hexp
                dsimp only at hexp
                exact (by simpa [and_assoc] using hexp : _ ∧ _ ∧ _).2.2
            | vMissing => rw [htv] at hexp; simp at hexp
            | vNone => rw [htv] at hexp; simp at hexp
            | vBool b => rw [htv] at hexp; simp at hexp
            | vInt n => rw [htv] at hexp; simp at hexp
            | vTuple xs => rw [htv] at hexp; simp at hexp
            | vList xs => rw [htv] at hexp; simp at hexp
          · simp only [Bool.not_eq_true] at hew
            rw [expGo, hew] at hexp
            simpa using hexp
      exact expGo_lookup reg x t hexp' k v hl'

/-- Containment is unchanged by a cons with a different key. -/
theorem dcontains_cons_ne {α : Type} {k k₀ : String} (v : CV α) (t : CD α) (h : k ≠ k₀) :
    dcontains k₀ (CD.cons k v t) = dcontains k₀ t := by
  simp [dcontains, dlookup, h]

/-- The central invariant of the idempotence proof: one level of schema
expansion over items drawn verbatim from `a` — a level equivalent to the
already-expanded, deeply duplicate-free reference level `x` — accumulates
only values equivalent to the corresponding values of `x`, and its output
covers every key of the items and of the accumulator. -/
theorem adaGo_fix (reg : Registry)
    (rec : CD (Ty × Val) → Except PErr (CD (Ty × Val)))
    (hrec : ∀ (b a y : CD (Ty × Val)), expanded reg b = true → nodupDeepCD b = true →
      nodupDeepCD a = true → EqvD a b → rec a = .ok y → EqvD y b)
    (x a : CD (Ty × Val)) (hx : expanded reg x = true) (hndx : nodupDeepCD x = true)
    (hnda : nodupDeepCD a = true) (hax : EqvD a x) :
    ∀ (items res out : CD (Ty × Val)),
      nodupDeepCD items = true →
      (∀ k v, dlookup k items = some v → dlookup k a = some v) →
      (∀ k v, dlookup k res = some v → ∃ vx, dlookup k x = some vx ∧ EqvA v vx) →
      adaGo reg rec a items res = .ok out →
      (∀ k v, dlookup k out = some v → ∃ vx, dlookup k x = some vx ∧ EqvA v vx) ∧
      (∀ k, (dcontains k items || dcontains k res) = true → dcontains k out = true)
  | .nil, res, out, _, _, hres, hok => by
    obtain rfl : res = out := by simpa [adaGo] using hok
    refine ⟨hres, ?_⟩
    intro k hk
    simpa [dcontains, dlookup] using hk
  | .cons k v t, res, out, hndit, hlit, hres, hok => by
    have hnd3 : dcontains k t = false ∧ nodupDeepCV v = true ∧ nodupDeepCD t = true := by
      simpa [nodupDeepCD, and_assoc] using hndit
    have hndt : nodupDeepCD t = true := hnd3.2.2
    have hak : dlookup k a = some v := hlit k v (by simp [dlookup])
    have hlt : ∀ k₀ v₀, dlookup k₀ t = some v₀ → dlookup k₀ a = some v₀ := by
      intro k₀ v₀ h₀
      by_cases he : k = k₀
      · subst he
        exact absurd hnd3.1 (by simp [dcontains, h₀])
      · exact hlit k₀ v₀ (by simpa [dlookup, he] using h₀)
    obtain ⟨vx, hvxl, hvxe⟩ := EqvD_lookup hax hak
    cases v with
    | dict m =>
      obtain ⟨mx, rfl, hEqm⟩ := EqvA_dict_inv hvxe
      have hexpmx : expanded reg mx = true :=
        (expGo_lookup reg x x hx k (.dict mx) hvxl).1 mx rfl
      have hndmx : nodupDeepCD mx = true := by
        simpa [nodupDeepCV] using nodupDeep_lookup x (.dict mx) hndx hvxl
      have hndm : nodupDeepCD m = true := by simpa [nodupDeepCV] using hnd3.2.1
      simp only [adaGo] at hok
      cases hr : rec m with
      | error e => rw [hr] at hok; exact absurd hok (by simp)
      | ok m' =>
        rw [hr] at hok
        dsimp only at hok
        have hsub : EqvD m' mx := hrec mx m m' hexpmx hndmx hndm hEqm hr
        have hres' : ∀ k₀ v₀, dlookup k₀ (dinsert res k (.dict m')) = some v₀ →
            ∃ vy, dlookup k₀ x = some vy ∧ EqvA v₀ vy := by
          intro k₀ v₀ h₀
          by_cases hkk : k₀ = k
          · subst hkk
            rw [dlookup_dinsert_self] at h₀
            injection h₀ with h
            subst h
            exact ⟨.dict mx, hvxl, hsub⟩
          · rw [dlookup_dinsert_ne res _ (Ne.symm hkk)] at h₀
            exact hres k₀ v₀ h₀
        obtain ⟨hA, hB⟩ := adaGo_fix reg rec hrec x a hx hndx hnda hax t _ out
          hndt hlt hres' hok
        refine ⟨hA, ?_⟩
        intro k₀ hk₀
        apply hB k₀
        by_cases hkk : k = k₀
        · subst hkk
          simp [dcontains_dinsert]
        · rw [dcontains_cons_ne _ t hkk] at hk₀
          rcases (by simpa using hk₀ :
              dcontains k₀ t = true ∨ dcontains k₀ res = true) with h | h
          · simp [h]
          · simp [dcontains_dinsert, h]
    | term tv =>
      obtain rfl : vx = .term tv := EqvA_term_inv hvxe
      by_cases hew : endsWithClass k = true
      · obtain ⟨name, fields, htv2, hreg, hndf, ms, hstx, hcov⟩ :=
          (expGo_lookup reg x x hx k (.term tv) hvxl).2 tv rfl hew
        have hmiss : ¬ tv.2 = Val.vMissing := by rw [htv2]; simp
        obtain ⟨vs, hvs, hvse⟩ := EqvD_lookup (EqvA_symm hax) hstx
        obtain ⟨ms', rfl, hmsms'⟩ := EqvA_dict_inv hvse
        have hms'ms : EqvD ms' ms := EqvA_symm hmsms'
        have hexpms : expanded reg ms = true :=
          (expGo_lookup reg x x hx (stripClass k) (.dict ms) hstx).1 ms rfl
        have hndms : nodupDeepCD ms = true := by
          simpa [nodupDeepCV] using nodupDeep_lookup x (.dict ms) hndx hstx
        have hndms' : nodupDeepCD ms' = true := by
          simpa [nodupDeepCV] using nodupDeep_lookup a (.dict ms') hnda hvs
        have hparams : nodupDeepCD (fieldsToCD fields) = true :=
          fieldsToCD_nodupDeep fields hndf
        have hndupd : nodupDeepCD (dUpdate (fieldsToCD fields) ms') = true :=
          dUpdate_nodupDeep ms' (fieldsToCD fields) hparams hndms'
        have hcovd : ∀ f ∈ fields, dcontains f.name ms = true := by
          simpa [fieldsCovered, List.all_eq_true] using hcov
        have hEqUpd : EqvD (dUpdate (fieldsToCD fields) ms') ms := by
          refine EqvA.dict _ _ ?_ ?_
          · intro k₀
            rw [dUpdate_contains ms' (fieldsToCD fields)]
            rw [EqvD_contains hms'ms k₀]
            cases hc0 : dcontains k₀ (fieldsToCD fields) with
            | false => simp
            | true =>
              obtain ⟨f, hf, hfn⟩ := fieldsToCD_contains_mem fields hc0
              have hcv := hcovd f hf
              rw [hfn] at hcv
              simp [hcv]
          · intro k₀ v₀ v₀h h₀ h₀h
            have hcms : dcontains k₀ ms = true := by simp [dcontains, h₀h]
            have hcms' : dcontains k₀ ms' = true := by
              rw [EqvD_contains hms'ms k₀]; exact hcms
            have hup : dlookup k₀ (dUpdate (fieldsToCD fields) ms') = dlookup k₀ ms' :=
              dlookup_dUpdate_mem_eq (fieldsToCD fields) ms'
                (nodupDeep_keys ms' hndms') hcms'
            rw [hup] at h₀
            obtain ⟨vy, hvy, hvye⟩ := EqvD_lookup hms'ms h₀
            rw [h₀h] at hvy
            obtain rfl : v₀h = vy := by simpa using hvy
            exact hvye
        simp only [adaGo] at hok
        rw [hew] at hok
        simp only [if_true] at hok
        rw [if_neg hmiss] at hok
        rw [htv2] at hok
        dsimp only at hok
        rw [hreg] at hok
        dsimp only at hok
        rw [hvs] at hok
        dsimp only at hok
        cases hr : rec (dUpdate (fieldsToCD fields) ms') with
        | error e => rw [hr] at hok; exact absurd hok (by simp)
        | ok sub =>
          rw [hr] at hok
          dsimp only at hok
          have hsubEq : EqvD sub ms :=
            hrec ms (dUpdate (fieldsToCD fields) ms') sub hexpms hndms hndupd hEqUpd hr
          have hres' : ∀ k₀ v₀,
              dlookup k₀ (dinsert (dinsert res k (.term tv)) (stripClass k)
                (.dict sub)) = some v₀ →
              ∃ vy, dlookup k₀ x = some vy ∧ EqvA v₀ vy := by
            intro k₀ v₀ h₀
            by_cases hks : k₀ = stripClass k
            · subst hks
              rw [dlookup_dinsert_self] at h₀
              injection h₀ with h
              subst h
              exact ⟨.dict ms, hstx, hsubEq⟩
            · rw [dlookup_dinsert_ne _ _ (Ne.symm hks)] at h₀
              by_cases hkk : k₀ = k
              · subst hkk
                rw [dlookup_dinsert_self] at h₀
                injection h₀ with h
                subst h
                exact ⟨.term tv, hvxl, .term tv⟩
              · rw [dlookup_dinsert_ne _ _ (Ne.symm hkk)] at h₀
                exact hres k₀ v₀ h₀
          obtain ⟨hA, hB⟩ := adaGo_fix reg rec hrec x a hx hndx hnda hax t _ out
            hndt hlt hres' hok
          refine ⟨hA, ?_⟩
          intro k₀ hk₀
          apply hB k₀
          by_cases hkk : k = k₀
          · subst hkk
            simp [dcontains_dinsert]
          · rw [dcontains_cons_ne _ t hkk] at hk₀
            rcases (by simpa using hk₀ :
                dcontains k₀ t = true ∨ dcontains k₀ res = true) with h | h
            · simp [h]
            · simp [dcontains_dinsert, h]
      · simp only [Bool.not_eq_true] at hew
        simp only [adaGo] at hok
        rw [hew] at hok
        simp only [Bool.false_eq_true, if_false] at hok
        have hres' : ∀ k₀ v₀, dlookup k₀ (dinsert res k (.term tv)) = some v₀ →
            ∃ vy, dlookup k₀ x = some vy ∧ EqvA v₀ vy := by
          intro k₀ v₀ h₀
          by_cases hkk : k₀ = k
          · subst hkk
            rw [dlookup_dinsert_self] at h₀
            injection h₀ with h
            subst h
            exact ⟨.term tv, hvxl, .term tv⟩
          · rw [dlookup_dinsert_ne res _ (Ne.symm hkk)] at h₀
            exact hres k₀ v₀ h₀
        obtain ⟨hA, hB⟩ := adaGo_fix reg rec hrec x a hx hndx hnda hax t _ out
          hndt hlt hres' hok
        refine ⟨hA, ?_⟩
        intro k₀ hk₀
        apply hB k₀
        by_cases hkk : k = k₀
        · subst hkk
          simp [dcontains_dinsert]
        · rw [dcontains_cons_ne _ t hkk] at hk₀
          rcases (by simpa using hk₀ :
              dcontains k₀ t = true ∨ dcontains k₀ res = true) with h | h
          · simp [h]
          · simp [dcontains_dinsert, h]

/-- A successful `add_default_args` run on any dictionary equivalent to an
already-expanded, deeply duplicate-free level returns a dictionary
equivalent to that level. -/
theorem ada_fix (reg : Registry) :
    ∀ (fuel : Nat) (x a y : CD (Ty × Val)),
      expanded reg x = true → nodupDeepCD x = true → nodupDeepCD a = true →
      EqvD a x → add_default_args reg fuel a = .ok y → EqvD y x
  | 0, x, a, y, _, _, _, _, h => by simp [add_default_args] at h
  | fuel + 1, x, a, y, hx, hndx, hnda, hax, h => by
    simp only [add_default_args] at h
    obtain ⟨hA, hB⟩ := adaGo_fix reg (add_default_args reg fuel)
      (fun b a₀ y₀ hb hndb hnda₀ ha₀b hr => ada_fix reg fuel b a₀ y₀ hb hndb hnda₀ ha₀b hr)
      x a hx hndx hnda hax a .nil y hnda (fun _ _ hv => hv)
      (fun k v hv => by simp [dlookup] at hv) h
    refine EqvA.dict y x ?_ ?_
    · intro k
      cases hcy : dcontains k y with
      | true =>
        obtain ⟨v, hv⟩ := Option.isSome_iff_exists.mp (by simpa [dcontains] using hcy)
        obtain ⟨vx, hvx, _⟩ := hA k v hv
        simp [dcontains, hvx]
      | false =>
        cases hcx : dcontains k x with
        | false => rfl
        | true =>
          have hca : dcontains k a = true := by rw [EqvD_contains hax k]; exact hcx
          exact absurd (hB k (by simp [hca])) (by simp [hcy])
    · intro k v vx hv hvx
      obtain ⟨vy, hvy, he⟩ := hA k v hv
      rw [hvx] at hvy
      obtain rfl : vx = vy := by simpa using hvy
      exact he

/-- C9: idempotence of schema expansion. For every flat typed-argument
configuration `x` in which every `"_class"` selector holds a non-missing,
registry-resolvable schema name whose schema fields have already been
injected (the `expanded` predicate) and whose keys are distinct at every
level, a second pass of `add_default_args` over the output of a first pass
returns that output again, up to Python dictionary equality:
`add_default_args(add_default_args(x)) == add_default_args(x)` for any fuel
amounts on which both passes return. -/
theorem C9_idempotence (reg : Registry) (f1 f2 : Nat) (x y z : CD (Ty × Val))
    (hx : expanded reg x = true) (hnd : nodupDeepCD x = true)
    (h1 : add_default_args reg f1 x = .ok y)
    (h2 : add_default_args reg f2 y = .ok z) : EqvD z y := by
  have hyx : EqvD y x := ada_fix reg f1 x x y hx hnd hnd (EqvA_refl (.dict x)) h1
  have hndy : nodupDeepCD y = true := ada_nodupDeep reg f1 x y h1
  have hzx : EqvD z x := ada_fix reg f2 x y z hx hnd hndy hyx h2
  exact EqvA_trans hzx (EqvA_symm hyx)

/-- Witness for C9: the expanded configuration with schema `B` selected and
its field `y` injected with value `5` is a fixed point of both passes. -/
theorem C9_idempotence_witness :
    expanded regAB expandedFix = true ∧ nodupDeepCD expandedFix = true ∧
    add_default_args regAB 5 expandedFix = .ok expandedFix ∧
    EqvD expandedFix expandedFix :=
  ⟨by decide, by decide, by decide,
    C9_idempotence regAB 5 5 expandedFix expandedFix expandedFix (by decide) (by decide)
      (by decide) (by decide)⟩
